import Mathlib

/-!
Shallow embedding of `src/lattice.py` (pronunciation-by-analogy lattice engine)
and verification of the frozen claims about it.

Modelling conventions:
* Python strings are `List Char`; per-node symbols are singleton lists, the
  START/END sentinels carry `[]`.
* Python objects interned in `self.nodes` / `self.arcs` (dicts keyed by the
  hash of the identity tuple) become insertion-ordered `List`s keyed by the
  identity tuple itself.  Hash collisions of Python's `hash` are not modelled.
* The mutable per-node `visited` flag becomes a `Node → Bool` field of the
  lattice state; all other mutation is explicit state passing.
* Python float arithmetic on the heuristic scores is modelled as exact
  rational arithmetic via `Frac` (numerator/denominator pairs whose
  denominators stay positive by construction); every quantity the source
  computes is an exact rational, so only rounding is abstracted away.
* Python exceptions and `exit()` are modelled by `Except PyErr`.
* Unbounded recursion (the DFS `util` and the retry `while` loop) is given
  explicit fuel; fuel exhaustion models nontermination and is unreachable for
  the fuel supplied (the DFS depth is bounded by the node count because each
  recursive call targets an unvisited node and marks it; the retry loop makes
  at least one `util` call per iteration, and the call counter's hard ceiling
  of 25000000 forces `overflow` after at most 25000001 calls).
-/

namespace PBA

/-- Exact fraction used to model Python float results (`statistics.stdev`,
Borda-score division).  Denominators are positive in every value the
embedding constructs; comparisons are by cross-multiplication. -/
structure Frac where
  num : Int
  den : Int
  deriving DecidableEq

/-- Embed an integer. -/
def Frac.ofInt (n : Int) : Frac := ⟨n, 1⟩

/-- Addition of fractions (no normalisation). -/
def Frac.add (a b : Frac) : Frac := ⟨a.num * b.den + b.num * a.den, a.den * b.den⟩

/-- Subtraction of fractions. -/
def Frac.sub (a b : Frac) : Frac := ⟨a.num * b.den - b.num * a.den, a.den * b.den⟩

/-- Multiplication of fractions. -/
def Frac.mul (a b : Frac) : Frac := ⟨a.num * b.num, a.den * b.den⟩

/-- Division by an integer (used only with positive divisors). -/
def Frac.divInt (a : Frac) (n : Int) : Frac := ⟨a.num, a.den * n⟩

/-- Value equality (Python `==` on the modelled floats); correct because all
denominators are positive. -/
def Frac.feq (a b : Frac) : Bool := a.num * b.den == b.num * a.den

/-- Value order `≤`; correct because all denominators are positive. -/
def Frac.fle (a b : Frac) : Bool := decide (a.num * b.den ≤ b.num * a.den)

/-- Value order `<`. -/
def Frac.flt (a b : Frac) : Bool := decide (a.num * b.den < b.num * a.den)

/-- Rational value of a fraction. -/
def Frac.toQ (a : Frac) : ℚ := (a.num : ℚ) / (a.den : ℚ)

/-- Identity key of `lattice.py`'s `Node`: `(matched_letter, phoneme, index)`.
Python's `Node.__eq__`/`__hash__` use exactly this triple; the mutable
`visited` flag lives in `Lattice.visited`, and the adjacency lists
`to_arcs`/`from_arcs` are recovered from the arc store (see
`Lattice.to_arcs`). -/
structure Node where
  matched_letter : List Char
  phoneme : List Char
  index : Int
  deriving DecidableEq

/-- An arc of the lattice.  Python `Arc.__eq__`/`__hash__` use the triple
`(from_node, intermediate_phonemes, to_node)`; `count` is the mutable
occurrence counter stored on the interned object (snapshots of the object are
what candidates hold during a search, and the store is never mutated while a
search runs). -/
structure Arc where
  from_node : Node
  intermediate_phonemes : List Char
  to_node : Node
  count : Nat
  deriving DecidableEq

/-- Python `Arc.structure_component = to_node.index - from_node.index`,
assigned at construction and determined by the endpoints. -/
def Arc.structure_component (a : Arc) : Int := a.to_node.index - a.from_node.index

/-- Python `Arc.contains`: whether either endpoint occurs in the list. -/
def Arc.contains (a : Arc) (list_of_nodes : List Node) : Bool :=
  list_of_nodes.contains a.from_node || list_of_nodes.contains a.to_node

/-- Python `Candidate`.  `path` alternates nodes and arcs, so its elements are
a sum type.  `path_structure_variance` stores the square of what the source
keeps in `path_structure_standard_deviation` (the sample variance computed by
`statistics.stdev` before its final square root); the square keeps the
embedding executable, `Candidate.stdevR` recovers the real-valued standard
deviation, and ranking by the square is order-equivalent to ranking by the
standard deviation because `Real.sqrt` is monotone (see
`stdev_rank_equivalence`). -/
structure Candidate where
  path : List (Node ⊕ Arc)
  arcs : List Arc
  path_strings : List (List Char)
  pronunciation : List Char
  arc_count_sum : Int
  arc_count_product : Nat
  sum_of_products : Nat
  frequency_of_same_pronunciation : Nat
  length : Int
  path_structure_variance : Frac
  weakest_link : Nat
  number_of_different_symbols : Nat
  deriving DecidableEq

/-- Python `Candidate.__init__` with `other == None`. -/
def Candidate.empty : Candidate :=
  { path := [], arcs := [], path_strings := [], pronunciation := []
    arc_count_sum := 0, arc_count_product := 1, sum_of_products := 0
    frequency_of_same_pronunciation := 1, length := 0
    path_structure_variance := Frac.ofInt 0, weakest_link := 0
    number_of_different_symbols := 0 }

/-- Python `Candidate.__init__` with `other != None` (shallow copy).  Note the
source copies every field except `number_of_different_symbols`, which it
resets to `0`. -/
def Candidate.copy (other : Candidate) : Candidate :=
  { other with number_of_different_symbols := 0 }

/-- Python `Candidate.solidify`. -/
def Candidate.solidify (c : Candidate) : Candidate :=
  { c with pronunciation := c.path_strings.flatten }

/-- State of the pronunciation lattice (`Lattice.__init__` plus the mutable
graph stores). -/
structure Lattice where
  letters : List Char
  nodes : List Node
  arcs : List Arc
  unrepresented_bigrams : List (Nat × List Char)
  visited : Node → Bool

/-- The START sentinel (`Node('', '', -1)`). -/
def Lattice.START_NODE (_g : Lattice) : Node := ⟨[], [], -1⟩

/-- The END sentinel (`Node('', '', len(letters))`). -/
def Lattice.END_NODE (g : Lattice) : Node := ⟨[], [], (g.letters.length : Int)⟩

/-- Python `Lattice.__init__`. -/
def Lattice.init (letters : List Char) : Lattice :=
  { letters := letters
    nodes := [⟨[], [], -1⟩, ⟨[], [], (letters.length : Int)⟩]
    arcs := []
    unrepresented_bigrams := []
    visited := fun _ => false }

/-- Per-node outgoing adjacency.  Python appends each arc to
`from_node.to_arcs` exactly once, at creation; hence the list equals the
insertion-ordered arc store filtered by source endpoint. -/
def Lattice.to_arcs (g : Lattice) (n : Node) : List Arc :=
  g.arcs.filter (fun a => a.from_node == n)

/-- Python `Candidate.update(parent, arc)`. -/
def Candidate.update (c : Candidate) (parent : Lattice) (arc : Arc) : Candidate :=
  let path := c.path ++ [Sum.inl arc.from_node, Sum.inr arc]
  let arcs := c.arcs ++ [arc]
  let path_strings := c.path_strings ++ [arc.from_node.phoneme, arc.intermediate_phonemes]
  let arc_count_sum := c.arc_count_sum +
    (if arc.contains [parent.START_NODE, parent.END_NODE] then 0 else (arc.count : Int))
  let length := c.length + 1
  -- `if len(self.arcs) == 1:` drop the synthetic START node's contribution.
  if arcs.length = 1 then
    { c with path := path.drop 1, arcs := arcs, path_strings := path_strings.drop 1
             arc_count_sum := arc_count_sum, length := length }
  else
    { c with path := path, arcs := arcs, path_strings := path_strings
             arc_count_sum := arc_count_sum, length := length }

/-- Python `Candidate.pop(parent)`.  The source indexes `self.arcs[-1]`; pop
is only ever invoked right after an `update`, so the arc list is nonempty
there, and the empty case below is unreachable in context. -/
def Candidate.pop (c : Candidate) (parent : Lattice) : Candidate :=
  match c.arcs.getLast? with
  | none => c
  | some removed =>
    { c with
      arc_count_sum := c.arc_count_sum -
        (if removed.contains [parent.START_NODE, parent.END_NODE] then 0 else (removed.count : Int))
      length := c.length - 1
      arcs := c.arcs.dropLast
      path := c.path.take (c.path.length - 2)
      path_strings := c.path_strings.take (c.path_strings.length - 2) }

/-- Replace the first arc matching the identity key (a Python dict holds at
most one entry per key). -/
def updateFirstArc (key : Arc → Bool) (v : Arc) : List Arc → List Arc
  | [] => []
  | x :: xs => if key x then v :: xs else x :: updateFirstArc key v xs

/-- Identity-key test used by the arc store (`hash((inter, a, b))`). -/
def arcKeyIs (inter : List Char) (a b : Node) (x : Arc) : Bool :=
  x.from_node == a && x.intermediate_phonemes == inter && x.to_node == b

/-- Python `Lattice.add.create_or_iterate_arc`.  An existing arc's count is
incremented unless the arc touches a sentinel; a new arc starts at count 1. -/
def Lattice.create_or_iterate_arc (g : Lattice) (inter : List Char) (a b : Node) :
    Lattice × Arc :=
  match g.arcs.find? (arcKeyIs inter a b) with
  | some found =>
    let found2 := { found with
      count := found.count + (if found.contains [g.START_NODE, g.END_NODE] then 0 else 1) }
    ({ g with arcs := updateFirstArc (arcKeyIs inter a b) found2 g.arcs }, found2)
  | none =>
    let new : Arc := { from_node := a, intermediate_phonemes := inter, to_node := b, count := 1 }
    ({ g with arcs := g.arcs ++ [new] }, new)

/-- Python `Lattice.add.create_or_find_node`. -/
def Lattice.create_or_find_node (g : Lattice) (l p : List Char) (i : Int) : Lattice × Node :=
  if g.nodes.contains ⟨l, p, i⟩ then (g, ⟨l, p, i⟩)
  else ({ g with nodes := g.nodes ++ [⟨l, p, i⟩] }, ⟨l, p, i⟩)

/-- Python `Lattice.add(sub_letters, sub_phones, start_index)`.  Spans are
nonempty in every call site (the source would raise `IndexError` otherwise);
the degenerate empty-span case is modelled as a no-op.  Note the source's
`elif`: a span that both starts at index 0 and reaches the last letter gets
only the START connector. -/
def Lattice.add (g : Lattice) (sub_letters sub_phones : List Char) (start_index : Int) :
    Lattice :=
  match sub_letters, sub_phones with
  | l0 :: _, p0 :: _ =>
    let (g, a) := g.create_or_find_node [l0] [p0] start_index
    let (g, b) := g.create_or_find_node [sub_letters.getLastD l0] [sub_phones.getLastD p0]
      (start_index + sub_letters.length - 1)
    let (g, _arc) := g.create_or_iterate_arc ((sub_phones.drop 1).dropLast) a b
    if start_index = 0 then
      (g.create_or_iterate_arc [] g.START_NODE a).1
    else if start_index + sub_letters.length = g.letters.length then
      (g.create_or_iterate_arc [] b g.END_NODE).1
    else g
  | _, _ => g

/-- Python exceptions and process termination, as surfaced by the model. -/
inductive PyErr where
  /-- `exit()` in `link_unrepresented`. -/
  | exitCall
  /-- `IndexError` (out-of-range string/list indexing). -/
  | indexErr
  /-- `statistics.StatisticsError` from `stdev` on fewer than two points. -/
  | statsErr
  /-- `ValueError` from `min()`/`max()` of an empty sequence. -/
  | minEmpty
  /-- `TypeError` from `len()` of a non-sequence. -/
  | typeErr
  /-- Fuel exhaustion; models nontermination, unreachable for the fuel used. -/
  | fuelOut
  deriving DecidableEq

/-- Python `Lattice.flag_unrepresented_bigrams(input_word, database)`.  Only
the keys of `database` are consumed.  The source iterates
`range(0, len(word) - 2)`, which stops one bigram short of the end both for
lexicon entries and for the input word; the model reproduces that bound
exactly (`List.range (n - 2)` with truncated subtraction). -/
def Lattice.flag_unrepresented_bigrams (g : Lattice) (input_word : List Char)
    (database_keys : List (List Char)) : Lattice :=
  let represented_bigrams : List (List Char) :=
    database_keys.foldl (fun acc word =>
      (List.range (word.length - 2)).foldl (fun acc index =>
        let bigram := [word.getD index ' ', word.getD (index + 1) ' ']
        if acc.contains bigram then acc else acc ++ [bigram]) acc) []
  let unrep := (List.range (input_word.length - 2)).foldl (fun acc x =>
    let bigram := [input_word.getD x ' ', input_word.getD (x + 1) ' ']
    if represented_bigrams.contains bigram then acc else acc ++ [(x, bigram)]) []
  { g with unrepresented_bigrams := unrep }

/-- Left fold that propagates the first `Except` failure (used to model
Python `for` loops whose bodies can raise). -/
def exFoldl {α β : Type} (f : β → α → Except PyErr β) : β → List α → Except PyErr β
  | b, [] => .ok b
  | b, x :: xs =>
    match f b x with
    | .error e => .error e
    | .ok b2 => exFoldl f b2 xs

/-- Python `Lattice.link_unrepresented`.  `exit()` on a missing start node is
`PyErr.exitCall`. -/
def Lattice.link_unrepresented (g : Lattice) : Except PyErr Lattice :=
  if g.unrepresented_bigrams.length = 0 then .ok g
  else
    exFoldl (fun g item =>
      let start_index : Nat := item.1
      let bigram := item.2
      match bigram.get? 0, bigram.get? 1 with
      | some _start_char, some end_char =>
        let nodes_at_start_index := g.nodes.filter (fun n => n.index == (start_index : Int))
        let nodes_at_end_index := g.nodes.filter (fun n => n.index == (start_index : Int) + 1)
        if nodes_at_start_index.length = 0 then .error .exitCall
        else
          let nodes_at_end_index :=
            if nodes_at_end_index.length = 0 then
              [(⟨[end_char], ['-'], (start_index : Int) + 1⟩ : Node)]
            else nodes_at_end_index
          .ok (nodes_at_start_index.foldl (fun g start_node =>
            nodes_at_end_index.foldl (fun g end_node =>
              g.add (start_node.matched_letter ++ end_node.matched_letter)
                (start_node.phoneme ++ end_node.phoneme) (start_index : Int)) g) g)
      | _, _ => .error .indexErr) g g.unrepresented_bigrams

/-- Inner `link(i)` of Python `Lattice.link_silences`: cross-connect every
node at index `i` to every node at index `i + 1`. -/
def Lattice.link (g : Lattice) (i : Nat) : Lattice :=
  let furthest_reached_nodes := g.nodes.filter (fun n => n.index == (i : Int))
  let nodes_beyond := g.nodes.filter (fun n => n.index == (i : Int) + 1)
  furthest_reached_nodes.foldl (fun g from_node =>
    nodes_beyond.foldl (fun g to_node =>
      g.add (from_node.matched_letter ++ to_node.matched_letter)
        (from_node.phoneme ++ to_node.phoneme) (i : Int)) g) g

/-- Python `Lattice.link_silences(furthest)`.  Indexing
`letters[furthest + 1]` raises `IndexError` when `furthest` is the last
position; the regex lookahead finds all (overlapping) occurrences of the
bigram. -/
def Lattice.link_silences (g : Lattice) (furthest : Int) : Except PyErr Lattice :=
  match g.letters.get? furthest.toNat, g.letters.get? (furthest.toNat + 1) with
  | some c0, some c1 =>
    let silent_pair := [c0, c1]
    let indices := (List.range g.letters.length).filter
      (fun m => (g.letters.drop m).take 2 == silent_pair)
    .ok (indices.foldl (fun g index => g.link index) g)
  | _, _ => .error .indexErr

/-- The mutable locals of `Lattice.find_all_paths` that survive across
recursive `util` calls and retry iterations (`min_length`, `furthest_index`,
`candidates`, `util_call_count`, `overflow`).  `min_length = none` plays the
role of the `sys.maxsize` initialiser (no candidate length ever reaches
`sys.maxsize`, since lengths are bounded by the call ceiling). -/
structure SearchState where
  min_length : Option Int
  furthest_index : Int
  candidates : List Candidate
  util_call_count : Nat
  overflow : Bool
  deriving DecidableEq

/-- Comparison `l < min_length` against the `sys.maxsize`-style initialiser. -/
def ltMin (l : Int) (m : Option Int) : Bool :=
  match m with
  | none => true
  | some v => decide (l < v)

/-- The initial search state of one `find_all_paths` call. -/
def SearchState.initial : SearchState :=
  { min_length := none, furthest_index := 0, candidates := [], util_call_count := 0
    overflow := false }

/-- One iteration of the `for arc in u.to_arcs` loop of `util`: push the arc
onto the buffer, recur (`rec`, the DFS at the next fuel level) into an
unvisited target, pop.  Taking the recursive call as an argument keeps `util`
structurally recursive on its fuel. -/
def utilStep (rec : Node → Candidate → SearchState → Lattice →
      Candidate × SearchState × Lattice)
    (acc : Candidate × SearchState × Lattice) (arc : Arc) :
    Candidate × SearchState × Lattice :=
  let buf := acc.1.update acc.2.2 arc
  let acc2 := if acc.2.2.visited arc.to_node = false then rec arc.to_node buf acc.2.1 acc.2.2
    else (buf, acc.2.1, acc.2.2)
  (acc2.1.pop acc2.2.2, acc2.2.1, acc2.2.2)

/-- Python `find_all_paths.util(u, d, candidate_buffer)`, the recursive DFS.
The fuel argument only forces termination: every recursive call targets a
node that is unvisited at call time and gets marked on entry, so the
recursion depth never exceeds the node count, and `util` is always invoked
with fuel `g.nodes.length + 1` on a freshly reset lattice (fuel exhaustion
returns the state unchanged and is unreachable there).  The body mirrors the
source line by line: bump the call counter; abort with `overflow` past the
25000000 ceiling; mark `u` visited; advance `furthest_index`; at the
destination, record a solidified copy of the buffer and tighten `min_length`;
otherwise, while the buffer is shorter than `min_length`, push each outgoing
arc, recur into unvisited targets, and pop (`utilStep`); finally unmark `u`. -/
def util (fuel : Nat) (u d : Node) (buf : Candidate) (s : SearchState) (g : Lattice) :
    Candidate × SearchState × Lattice :=
  match fuel with
  | 0 => (buf, s, g)
  | Nat.succ fuel' =>
    let s := { s with util_call_count := s.util_call_count + 1 }
    if 25000000 < s.util_call_count then (buf, { s with overflow := true }, g)
    else
      let g := { g with visited := fun n => if n = u then true else g.visited n }
      let s := { s with furthest_index :=
        if s.furthest_index < u.index then u.index else s.furthest_index }
      if u = d then
        let complete_candidate := (Candidate.copy buf).solidify
        let s := { s with candidates := s.candidates ++ [complete_candidate] }
        let s := if ltMin buf.length s.min_length then { s with min_length := some buf.length }
          else s
        (buf, s, { g with visited := fun n => if n = u then false else g.visited n })
      else if ltMin buf.length s.min_length then
        let acc := (g.to_arcs u).foldl
          (utilStep (fun v b s2 g2 => util fuel' v d b s2 g2)) (buf, s, g)
        (acc.1, acc.2.1,
          { acc.2.2 with visited := fun n => if n = u then false else (acc.2.2).visited n })
      else
        (buf, s, { g with visited := fun n => if n = u then false else g.visited n })

/-- Result of `find_all_paths`: the candidate list, or one of the two error
codes (`NO_PATHS_FOUND = 999`, `SEARCHED_TOO_LONG = 998`). -/
inductive SearchResult where
  | found : List Candidate → SearchResult
  | noPathsFound
  | searchedTooLong
  deriving DecidableEq

/-- One search attempt of the retry loop: reset every node's `visited`
marker to `False`, create a fresh `candidate_buffer`, and run the DFS from
START to END.  (`self.nodes` is read after the reset, which changes nothing:
the reset touches only the `visited` markers.) -/
def Lattice.searchAttempt (g : Lattice) (s : SearchState) :
    Candidate × SearchState × Lattice :=
  util (({ g with visited := fun _ => false }).nodes.length + 1)
    ({ g with visited := fun _ => false }).START_NODE
    ({ g with visited := fun _ => false }).END_NODE
    Candidate.empty s { g with visited := fun _ => false }

/-- The retry `while` loop of `find_all_paths`.  `last_furthest_index` is the
loop's stall detector; the source initialises it to `-1` and never reassigns
it, which the model reproduces by threading it unchanged through every
recursive call.  One iteration: stall check, reset every `visited` marker,
run `util` from START to END with a fresh buffer, `continue` if candidates
exist, otherwise run the reactive gap repair `link_silences` at the furthest
reached index.  On exit, `overflow` wins over the accumulated candidates. -/
def Lattice.searchLoop (g : Lattice) (fuel : Nat) (last_furthest_index : Int)
    (s : SearchState) : Except PyErr (SearchResult × SearchState × Lattice) :=
  match fuel with
  | 0 => .error .fuelOut
  | Nat.succ fuel' =>
    if s.furthest_index < (g.letters.length : Int) ∧ s.overflow = false then
      if s.furthest_index = last_furthest_index then .ok (.noPathsFound, s, g)
      else
        let att := g.searchAttempt s
        if 0 < att.2.1.candidates.length then
          att.2.2.searchLoop fuel' last_furthest_index att.2.1
        else
          match att.2.2.link_silences att.2.1.furthest_index with
          | .error e => .error e
          | .ok g2 => g2.searchLoop fuel' last_furthest_index att.2.1
    else
      .ok (if s.overflow then .searchedTooLong else .found s.candidates, s, g)

/-- Python `Lattice.find_all_paths` (the `verbose` printing is pure output
and is dropped).  Also returns the final search state and lattice so that
claims about the transient markers and the overflow flag are statable.  The
loop fuel 25000002 exceeds the largest possible number of iterations: every
iteration makes at least one `util` call, each call increments the counter,
and the loop stops once the counter passes 25000000. -/
def Lattice.find_all_paths (g : Lattice) :
    Except PyErr (SearchResult × SearchState × Lattice) :=
  match g.link_unrepresented with
  | .error e => .error e
  | .ok g => g.searchLoop 25000002 (-1) SearchState.initial

/-- Python `math.prod` over the arc counts of a path. -/
def prodCounts (arcs : List Arc) : Nat := arcs.foldl (fun acc a => acc * a.count) 1

/-- Association-list lookup with default (Python `dict.get(k, d)`). -/
def alistGetD {α β : Type} [BEq α] (m : List (α × β)) (k : α) (d : β) : β :=
  match m.find? (fun p => p.1 == k) with
  | some p => p.2
  | none => d

/-- Association-list write (Python `dict[k] = v`): update in place if the key
exists (keeping the originally inserted key and its position, as Python dicts
do), else append. -/
def alistSet {α β : Type} [BEq α] : List (α × β) → α → β → List (α × β)
  | [], k, v => [(k, v)]
  | p :: rest, k, v => if p.1 == k then (p.1, v) :: rest else p :: alistSet rest k v

/-- Python `Lattice.get_frequencies_by_pronunciation(candidate_list)`: maps
each pronunciation to its repeat count and to the sum of
`arc_count_product` over its occurrences. -/
def Lattice.get_frequencies_by_pronunciation (_g : Lattice) (candidate_list : List Candidate) :
    List (List Char × Nat) × List (List Char × Nat) :=
  candidate_list.foldl (fun maps candidate =>
    let rep := maps.1
    let sop := maps.2
    (alistSet rep candidate.pronunciation
        (alistGetD rep candidate.pronunciation 0 + 1),
     alistSet sop candidate.pronunciation
        (alistGetD sop candidate.pronunciation 0 + candidate.arc_count_product)))
    ([], [])

/-- Positional symbol-mismatch count between one pronunciation and a
competitor's: Python
`sum(1 for j, ch in enumerate(p) if ch != other[j])`, raising `IndexError`
as soon as `j` falls outside the competitor. -/
def diffSymbols : List Char → List Char → Except PyErr Nat
  | [], _ => .ok 0
  | _ :: _, [] => .error .indexErr
  | c :: cs, o :: os =>
    match diffSymbols cs os with
    | .error e => .error e
    | .ok n => .ok ((if c ≠ o then 1 else 0) + n)

/-- Monadic map propagating the first failure, in order (models a Python
`for` loop that can raise). -/
def exMapM {α β : Type} (f : α → Except PyErr β) : List α → Except PyErr (List β)
  | [] => .ok []
  | x :: xs =>
    match f x with
    | .error e => .error e
    | .ok y =>
      match exMapM f xs with
      | .error e => .error e
      | .ok ys => .ok (y :: ys)

/-- Exact sample variance (divisor `n - 1`) of a list of integers: the square
of what Python's `statistics.stdev` returns (that library computes the exact
fraction below and takes a floating square root at the very end). -/
def sampleVariance (xs : List Int) : Frac :=
  let n := xs.length
  let mean : Frac := ⟨xs.foldl (fun a x => a + x) 0, (n : Int)⟩
  let ss : Frac := xs.foldl
    (fun acc x => acc.add (((Frac.ofInt x).sub mean).mul ((Frac.ofInt x).sub mean)))
    (Frac.ofInt 0)
  ss.divInt ((n : Int) - 1)

/-- Population variance (divisor `n`) of a list of integers; the square of
the population standard deviation named by the specification. -/
def popVariance (xs : List Int) : Frac :=
  let n := xs.length
  let mean : Frac := ⟨xs.foldl (fun a x => a + x) 0, (n : Int)⟩
  let ss : Frac := xs.foldl
    (fun acc x => acc.add (((Frac.ofInt x).sub mean).mul ((Frac.ofInt x).sub mean)))
    (Frac.ofInt 0)
  ss.divInt (n : Int)

/-- Real value of a fraction. -/
noncomputable def Frac.toReal (a : Frac) : ℝ := (a.num : ℝ) / (a.den : ℝ)

/-- The real-valued sample standard deviation, i.e. exactly what Python's
`statistics.stdev` computes (up to float rounding, which is not modelled). -/
noncomputable def sampleStdDev (xs : List Int) : ℝ := Real.sqrt (sampleVariance xs).toReal

/-- The real-valued population standard deviation named by the spec. -/
noncomputable def popStdDev (xs : List Int) : ℝ := Real.sqrt (popVariance xs).toReal

/-- The real-valued `path_structure_standard_deviation` field of the source:
the square root of the stored variance. -/
noncomputable def Candidate.stdevR (c : Candidate) : ℝ :=
  Real.sqrt c.path_structure_variance.toReal

/-- Python `Lattice.compute_heuristics(candidates)`.  First pass sets every
`arc_count_product`; then the pronunciation frequency maps are taken; the
second pass fills, for each candidate in order: the span-length deviation
(`statistics.stdev`, raising on fewer than two arcs), the pronunciation
frequency and sum of products, the cross-candidate symbol mismatch count
(raising `IndexError` on a shorter competitor pronunciation), and the
weakest link (`min` over interior arc counts, raising `ValueError` when
every arc of the path touches START or END).  `compute_heuristics_step` is
the loop body for the candidate at position `i`; `compute_heuristics` runs
the first pass and then the loop. -/
def Lattice.compute_heuristics_step (g : Lattice) (cs1 : List Candidate)
    (maps : List (List Char × Nat) × List (List Char × Nat)) (p : Nat × Candidate) :
    Except PyErr Candidate :=
  let i := p.1
  let c := p.2
  if c.arcs.length < 2 then .error .statsErr
  else
    let variance := sampleVariance (c.arcs.map Arc.structure_component)
    let other_candidates := cs1.take i ++ cs1.drop (i + 1)
    match exMapM (fun o => diffSymbols c.pronunciation o.pronunciation) other_candidates with
    | .error e => .error e
    | .ok diffs =>
      match c.arcs.filter (fun a => !(a.contains [g.START_NODE, g.END_NODE])) with
      | [] => .error .minEmpty
      | w :: ws => .ok { c with
          path_structure_variance := variance
          frequency_of_same_pronunciation := alistGetD maps.1 c.pronunciation 0
          sum_of_products := alistGetD maps.2 c.pronunciation 0
          number_of_different_symbols := diffs.foldl (fun a b => a + b) 0
          weakest_link := ws.foldl (fun m a => min m a.count) w.count }

def Lattice.compute_heuristics (g : Lattice) (candidates : List Candidate) :
    Except PyErr (List Candidate) :=
  let cs1 := candidates.map (fun c => { c with arc_count_product := prodCounts c.arcs })
  exMapM (g.compute_heuristics_step cs1 (g.get_frequencies_by_pronunciation cs1)) cs1.enum

/-- Stable insertion of `x` into an already sorted list: `x` goes in front of
the first element it may precede. -/
def insSorted {α : Type} (le : α → α → Bool) (x : α) : List α → List α
  | [] => [x]
  | y :: ys => if le x y then x :: y :: ys else y :: insSorted le x ys

/-- Stable sort.  Python's `list.sort` is stable; a stable sort's output is
determined uniquely by the (total, transitive) boolean preorder and the input
order, so insertion sort reproduces `list.sort(key=..., reverse=...)`
exactly. -/
def sortStable {α : Type} (le : α → α → Bool) (l : List α) : List α :=
  l.foldr (insSorted le) []

/-- The five heuristic attributes in the order of
`Lattice.rank_by_heuristics`, as fraction-valued keys.  Index 1 is the
variance field; sorting and tie-detection on the variance agree with sorting
and tie-detection on the standard deviation, since squaring is strictly
monotone on nonnegative reals (`stdev_rank_equivalence`). -/
def heuristicAttr : Nat → Candidate → Frac
  | 0, c => Frac.ofInt (c.arc_count_product : Int)
  | 1, c => c.path_structure_variance
  | 2, c => Frac.ofInt (c.frequency_of_same_pronunciation : Int)
  | 3, c => Frac.ofInt (c.number_of_different_symbols : Int)
  | 4, c => Frac.ofInt (c.weakest_link : Int)
  | _, _ => Frac.ofInt 0

/-- The `descending` list of `Lattice.rank_by_heuristics`. -/
def heuristicDescending : Nat → Bool
  | 1 => false
  | 3 => false
  | _ => true

/-- The competition-ranking pass of `Lattice.rank_by_heuristic`: walk the
sorted list, keeping the previous attribute value, the current rank and the
number of candidates at the previous rank.  Candidates carry an index tag
standing for Python object identity (`Candidate` defines `__hash__` but not
`__eq__`, so dict keys compare by identity). -/
def buildRanks (key : Candidate → Frac) :
    List (Nat × Candidate) → Frac → Nat → Nat → List ((Nat × Candidate) × Nat)
  | [], _, _, _ => []
  | c :: rest, prev, rank, candidates_at_prev_rank =>
    let curr := key c.2
    let rank2 := if (prev.feq curr) = false then rank + candidates_at_prev_rank else rank
    let at2 := if (prev.feq curr) = false then 1 else candidates_at_prev_rank + 1
    (c, rank2) :: buildRanks key rest curr rank2 at2

/-- Python `Lattice.rank_by_heuristic(candidates, attribute, descending)`.
The source sorts `candidates` in place and returns the rank dict; the model
returns both the rank association list (in dict insertion order, which is
the sorted order) and the sorted list, which the caller threads into the
next sort.  An empty candidate list would raise `IndexError` at
`candidates[0]` in the source; it is unreachable from `decide`, and the
model returns empty results there. -/
def Lattice.rank_by_heuristic (_g : Lattice) (tagged : List (Nat × Candidate))
    (key : Candidate → Frac) (descending : Bool) :
    List ((Nat × Candidate) × Nat) × List (Nat × Candidate) :=
  let sorted := sortStable (fun a b =>
    if descending then Frac.fle (key b.2) (key a.2) else Frac.fle (key a.2) (key b.2)) tagged
  match sorted with
  | [] => ([], [])
  | c0 :: _ => (buildRanks key sorted (key c0.2) 1 0, sorted)

/-- Python `Lattice.rank_to_score(candidate_to_rank_map, heuristic)`: Borda
points with even splitting among ties.  The first fold builds
`rank_to_points_map` exactly as the source does (each iteration overwrites
the entry for the current rank with the running buffer divided by the tie
count so far); the final map distributes the points. -/
def Lattice.rank_to_score (_g : Lattice)
    (candidate_to_rank_map : List ((Nat × Candidate) × Nat)) :
    List ((Nat × Candidate) × Frac) :=
  let points_awarded_to_first := candidate_to_rank_map.length
  let rank_to_points_map := (candidate_to_rank_map.enum.foldl
    (fun (acc : List (Nat × Frac) × Frac × Nat × Int) p =>
      let rtp := acc.1
      let point_buffer := acc.2.1
      let candidates_at_this_rank := acc.2.2.1
      let prev_rank := acc.2.2.2
      let n : Nat := p.1
      let rank : Nat := p.2.2
      let fresh := Frac.ofInt ((points_awarded_to_first : Int) - (n : Int))
      let pb2 := if prev_rank ≠ (rank : Int) then fresh else point_buffer.add fresh
      let at2 := if prev_rank ≠ (rank : Int) then 1 else candidates_at_this_rank + 1
      (alistSet rtp rank (pb2.divInt (at2 : Int)), pb2, at2, (rank : Int)))
    ([], Frac.ofInt 0, 0, -1)).1
  candidate_to_rank_map.map (fun p => (p.1, alistGetD rank_to_points_map p.2 (Frac.ofInt 0)))

/-- `itertools.product([0, 1], repeat=5)`: all 32 bit tuples, last position
fastest. -/
def bitStrings5 : List (List Nat) :=
  (List.range 32).map (fun k =>
    [(k >>> 4) &&& 1, (k >>> 3) &&& 1, (k >>> 2) &&& 1, (k >>> 1) &&& 1, k &&& 1])

/-- Lookup in a totals/score table keyed by candidate identity (the index
tag). -/
def tsGetD {β : Type} (m : List ((Nat × Candidate) × β)) (c : Nat × Candidate) (d : β) : β :=
  match m.find? (fun p => p.1.1 == c.1) with
  | some p => p.2
  | none => d

/-- Write to a totals table keyed by candidate identity, Python-dict style
(first write fixes the position and the stored key). -/
def tsSet {β : Type} : List ((Nat × Candidate) × β) → (Nat × Candidate) → β →
    List ((Nat × Candidate) × β)
  | [], c, v => [(c, v)]
  | p :: rest, c, v => if p.1.1 == c.1 then (p.1, v) :: rest else p :: tsSet rest c v

/-- Python `max(iterable, key=f)`: the first element attaining the maximum. -/
def firstMaxBy {α : Type} (val : α → Frac) : List α → Option α
  | [] => none
  | x :: xs => some (xs.foldl (fun best y => if Frac.flt (val best) (val y) then y else best) x)

/-- Python `min(list, key=attrgetter(attr))` on integer attributes: first
minimum. -/
def firstMinByInt {α : Type} (val : α → Int) : List α → Option α
  | [] => none
  | x :: xs => some (xs.foldl (fun best y => if val y < val best then y else best) x)

/-- Python `max(list, key=attrgetter(attr))` on integer attributes: first
maximum. -/
def firstMaxByInt {α : Type} (val : α → Int) : List α → Option α
  | [] => none
  | x :: xs => some (xs.foldl (fun best y => if val best < val y then y else best) x)

/-- The label string of one fusion strategy (`label += str(bit)` over the
five bits; the source builds it inside the totals loop, which is
equivalent). -/
def strategyLabel (strategy : List Nat) : String :=
  String.mk (strategy.map (fun b => if b = 1 then '1' else '0'))

/-- The totals dict of one fusion strategy: for each included column in bit
order, each candidate's entry (default 1) is multiplied by
`column[candidate] * bit + (1 - bit)`, in the final sorted candidate
order. -/
def strategyTotals (results : List (List ((Nat × Candidate) × Frac)))
    (t5 : List (Nat × Candidate)) (strategy : List Nat) :
    List ((Nat × Candidate) × Frac) :=
  strategy.enum.foldl
    (fun (totals : List ((Nat × Candidate) × Frac)) q =>
      let i := q.1
      let bit : Nat := q.2
      if bit = 0 then totals
      else
        let column := results.getD i []
        t5.foldl (fun totals candidate =>
          let colv := tsGetD column candidate (Frac.ofInt 0)
          tsSet totals candidate
            ((tsGetD totals candidate (Frac.ofInt 1)).mul
              ((colv.mul (Frac.ofInt (bit : Int))).add (Frac.ofInt (1 - (bit : Int))))))
          totals)
    []

/-- Python `Lattice.rank_by_heuristics(candidates)`.  The five
`rank_by_heuristic` calls each sort the same list in place, so the sorted
list is threaded through them; the scores are computed per column; then all
31 non-zero bit strategies are evaluated: the totals dict (keyed by
candidate identity, in the final sorted order) takes, per included column,
the factor `column[candidate] * bit + (1 - bit)`, and the winner of the
strategy is the first key attaining the maximal total.  Returns the labelled
winners together with the final order of the (shared, sorted) candidate
list. -/
def Lattice.rank_by_heuristics (g : Lattice) (tagged : List (Nat × Candidate)) :
    List (String × (Nat × Candidate)) × List (Nat × Candidate) :=
  let (r0, t1) := g.rank_by_heuristic tagged (heuristicAttr 0) (heuristicDescending 0)
  let (r1, t2) := g.rank_by_heuristic t1 (heuristicAttr 1) (heuristicDescending 1)
  let (r2, t3) := g.rank_by_heuristic t2 (heuristicAttr 2) (heuristicDescending 2)
  let (r3, t4) := g.rank_by_heuristic t3 (heuristicAttr 3) (heuristicDescending 3)
  let (r4, t5) := g.rank_by_heuristic t4 (heuristicAttr 4) (heuristicDescending 4)
  let results : List (List ((Nat × Candidate) × Frac)) :=
    [g.rank_to_score r0, g.rank_to_score r1, g.rank_to_score r2,
     g.rank_to_score r3, g.rank_to_score r4]
  let labeled_results := bitStrings5.foldl (fun labeled strategy =>
    if strategy.all (fun b => b = 0) then labeled
    else
      match firstMaxBy (fun p => p.2) (strategyTotals results t5 strategy) with
      | none => labeled
      | some best => labeled ++ [(strategyLabel strategy, best.1)])
    []
  (labeled_results, t5)

/-- Post-state of the caller's candidate list after `compute_heuristics`
mutated the minimum-length members in place: the k-th minimum-length element
is replaced by the k-th updated candidate, everything else is untouched. -/
def patchByLength : List Candidate → Int → List Candidate → List Candidate
  | [], _, _ => []
  | c :: rest, m, upd =>
    if c.length = m then
      match upd with
      | u :: us => u :: patchByLength rest m us
      | [] => c :: patchByLength rest m []
    else c :: patchByLength rest m upd

/-- The body of `Lattice.decide` past the input checks: filter to the
minimum length (`func_by_attribute(candidates, 'length', min)`); a unique
shortest candidate returns immediately under `min_length`; otherwise the
heuristics are computed on the tied subset, the 31 fusion winners are
collected, and the two single-metric picks (`sum_of_products`,
`arc_count_sum`, each `func_by_attribute(..., max)[0]` over the
post-sort list) are appended.  Besides the result mapping it returns the
post-state of the caller's candidate list and of the lattice (`decide`
performs no writes to the node or arc stores). -/
def Lattice.decideCore (g : Lattice) (candidates : List Candidate) :
    Except PyErr (List (String × Candidate) × List Candidate × Lattice) :=
  match firstMinByInt (fun c => c.length) candidates with
  | none => .error .minEmpty
  | some cmin =>
    let attr_val := cmin.length
    let min_lengths := candidates.filter (fun c => c.length == attr_val)
    if min_lengths.length = 1 then
      .ok ([("min_length", min_lengths.headD Candidate.empty)], candidates, g)
    else
      match g.compute_heuristics min_lengths with
      | .error e => .error e
      | .ok updated =>
        let candidates2 := patchByLength candidates attr_val updated
        let (labeled, t5) := g.rank_by_heuristics updated.enum
        match firstMaxByInt (fun p => ((p : Nat × Candidate).2.sum_of_products : Int)) t5,
              firstMaxByInt (fun p => (p : Nat × Candidate).2.arc_count_sum) t5 with
        | some sopBest, some acsBest =>
          let sop_list := t5.filter (fun p => p.2.sum_of_products == sopBest.2.sum_of_products)
          let acs_list := t5.filter (fun p => p.2.arc_count_sum == acsBest.2.arc_count_sum)
          let results := labeled.map (fun p => (p.1, p.2.2)) ++
            [("sum_of_products", (sop_list.headD (0, Candidate.empty)).2),
             ("arc_count_sum", (acs_list.headD (0, Candidate.empty)).2)]
          .ok (results, candidates2, g)
        | _, _ => .error .minEmpty

/-- The argument of `Lattice.decide`: Python passes `None`, an error code
(the integers 999/998, or any other int) or a candidate list. -/
inductive DecideInput where
  | noneInput
  | errorCode (code : Nat)
  | candidateList (cs : List Candidate)

/-- The result of `Lattice.decide`: `None` (degenerate input), a propagated
error code, or the label-to-candidate mapping. -/
inductive DecideOut where
  | noneOut
  | errorCode (code : Nat)
  | results (m : List (String × Candidate))
  deriving DecidableEq

/-- The keys of the `ERRORS` dict (`NO_PATHS_FOUND = 999`,
`SEARCHED_TOO_LONG = 998`; note `WORD_TOO_SHORT = 997` is absent). -/
def ERRORS : List Nat := [999, 998]

/-- Python `Lattice.decide(candidates)`.  `None` and the empty list print
and return `None`; an int among the `ERRORS` keys is propagated unchanged;
any other int reaches `len(candidates)` and raises `TypeError`.  A proper
list goes to `decideCore`.  The post-states of the candidate list and the
lattice are returned alongside. -/
def Lattice.decide (g : Lattice) (input : DecideInput) :
    Except PyErr (DecideOut × List Candidate × Lattice) :=
  match input with
  | .noneInput => .ok (.noneOut, [], g)
  | .errorCode code =>
    if ERRORS.contains code then .ok (.errorCode code, [], g) else .error .typeErr
  | .candidateList cs =>
    if cs.length = 0 then .ok (.noneOut, cs, g)
    else
      match g.decideCore cs with
      | .error e => .error e
      | .ok (m, cs2, g2) => .ok (.results m, cs2, g2)

/-- Whether the store holds an arc with the given identity key. -/
def Lattice.hasArc (g : Lattice) (inter : List Char) (a b : Node) : Bool :=
  (g.arcs.find? (arcKeyIs inter a b)).isSome

/-- The stored count of the arc with the given identity key (0 if absent). -/
def Lattice.arcCount (g : Lattice) (inter : List Char) (a b : Node) : Nat :=
  match g.arcs.find? (arcKeyIs inter a b) with
  | some arc => arc.count
  | none => 0

/-- How many arc objects in the store carry the given identity key. -/
def Lattice.arcsWithKey (g : Lattice) (inter : List Char) (a b : Node) : Nat :=
  (g.arcs.filter (arcKeyIs inter a b)).length

/-! ### Specification-side definitions used to state refinement claims -/

/-- The adjacent-letter bigrams of a word with their positions, at every
position `0 .. len - 2` inclusive — the specification's notion of "the
bigrams of a word" (claim C4). -/
def allBigrams (w : List Char) : List (Nat × List Char) :=
  (List.range (w.length - 1)).map (fun i => (i, [w.getD i ' ', w.getD (i + 1) ' ']))

/-- The flagged set claimed by the specification: every bigram of the target
word, final one included, that occurs nowhere as an adjacent pair in any
lexicon entry (final pairs of entries included). -/
def specFlaggedBigrams (input_word : List Char) (database_keys : List (List Char)) :
    List (Nat × List Char) :=
  (allBigrams input_word).filter (fun p =>
    !(database_keys.any (fun w => (allBigrams w).any (fun q => q.2 == p.2))))

/-! ### Claim C4 -/

/-- Claim C4 (code_bug evidence): at target word "abc" with lexicon entry
"xab", the source's `flag_unrepresented_bigrams` — which iterates
`range(0, len(word) - 2)` on both the lexicon entries and the input word —
flags `(0, "ab")` even though "ab" is the final adjacent pair of "xab", and
never examines the genuinely unattested final bigram `(1, "bc")`; the
specification's notion (`specFlaggedBigrams`) flags exactly `(1, "bc")`. -/
theorem flag_unrepresented_bigrams_off_by_one :
    ((Lattice.init ['a', 'b', 'c']).flag_unrepresented_bigrams ['a', 'b', 'c']
        [['x', 'a', 'b']]).unrepresented_bigrams = [(0, ['a', 'b'])] ∧
    specFlaggedBigrams ['a', 'b', 'c'] [['x', 'a', 'b']] = [(1, ['b', 'c'])] := by
  decide

/-! ### Claim C3 -/

/-- Claim C3 counterexample: the call `add("ab", "xy", 0)` on a fresh
two-letter lattice covers the whole word — its span reaches the word's last
letter — yet, because the source guards the END connector with `elif`, no
zero-symbol connector arc from the span's last node `("b", "y", 1)` to END
is created (indeed no arc into END exists at all). -/
theorem add_whole_word_span_lacks_end_connector :
    (((Lattice.init ['a', 'b']).add ['a', 'b'] ['x', 'y'] 0).hasArc []
        ⟨['b'], ['y'], 1⟩ ⟨[], [], 2⟩) = false ∧
    (((Lattice.init ['a', 'b']).add ['a', 'b'] ['x', 'y'] 0).arcs.all
        (fun a => a.to_node != (⟨[], [], 2⟩ : Node))) = true := by
  decide

/-! ### Lemmas about the arc store -/

lemma find?_append_singleton_isSome {α : Type} (p : α → Bool) (l : List α) (x : α)
    (hx : p x = true) : ((l ++ [x]).find? p).isSome = true := by
  induction l with
  | nil => simp [List.find?, hx]
  | cons h t ih =>
    cases hph : p h with
    | true => simp [List.find?, hph]
    | false => simpa [List.find?, hph] using ih

lemma updateFirstArc_find?_self (p : Arc → Bool) (v : Arc) (l : List Arc)
    (hl : (l.find? p).isSome = true) (hv : p v = true) :
    (updateFirstArc p v l).find? p = some v := by
  induction l with
  | nil => simp [List.find?] at hl
  | cons h t ih =>
    cases hph : p h with
    | true => simp [updateFirstArc, hph, List.find?, hv]
    | false =>
      simp only [List.find?, hph] at hl
      simpa [updateFirstArc, hph, List.find?] using ih hl

lemma arcKeyIs_set_count (inter : List Char) (a b : Node) (x : Arc) (k : Nat) :
    arcKeyIs inter a b { x with count := k } = arcKeyIs inter a b x := rfl

/-- After `create_or_iterate_arc inter a b`, an arc with that key is in the
store. -/
lemma hasArc_create_or_iterate (g : Lattice) (inter : List Char) (a b : Node) :
    ((g.create_or_iterate_arc inter a b).1).hasArc inter a b = true := by
  unfold Lattice.create_or_iterate_arc Lattice.hasArc
  cases hfind : g.arcs.find? (arcKeyIs inter a b) with
  | none =>
    dsimp only
    apply find?_append_singleton_isSome
    simp [arcKeyIs]
  | some found =>
    dsimp only
    have hkey : arcKeyIs inter a b found = true := List.find?_some hfind
    have hl1 : (g.arcs.find? (arcKeyIs inter a b)).isSome = true := by rw [hfind]; rfl
    have hv1 : ∀ k, arcKeyIs inter a b { found with count := k } = true :=
      fun k => by rw [arcKeyIs_set_count]; exact hkey
    rw [updateFirstArc_find?_self _ _ _ hl1 (hv1 _)]
    rfl

lemma create_or_find_node_letters (g : Lattice) (l p : List Char) (i : Int) :
    ((g.create_or_find_node l p i).1).letters = g.letters := by
  unfold Lattice.create_or_find_node
  split <;> rfl

lemma create_or_find_node_arcs (g : Lattice) (l p : List Char) (i : Int) :
    ((g.create_or_find_node l p i).1).arcs = g.arcs := by
  unfold Lattice.create_or_find_node
  split <;> rfl

lemma create_or_find_node_snd (g : Lattice) (l p : List Char) (i : Int) :
    (g.create_or_find_node l p i).2 = ⟨l, p, i⟩ := by
  unfold Lattice.create_or_find_node
  split <;> rfl

lemma create_or_iterate_arc_letters (g : Lattice) (inter : List Char) (a b : Node) :
    ((g.create_or_iterate_arc inter a b).1).letters = g.letters := by
  unfold Lattice.create_or_iterate_arc
  cases g.arcs.find? (arcKeyIs inter a b) <;> rfl

/-- Claim C3, amended: the zero-symbol connector from the span's last node to
END is created exactly when the span reaches the word's last letter and the
span does not start at index 0 (the source's `elif` skips the END connector
for a whole-word span; the unamended claim fails there, see
`add_whole_word_span_lacks_end_connector`). -/
theorem add_end_connector_of_reaches_last (g : Lattice) (l0 p0 : Char)
    (ls ps : List Char) (start_index : Int)
    (h0 : start_index ≠ 0)
    (hend : start_index + ((l0 :: ls).length : Int) = (g.letters.length : Int)) :
    (g.add (l0 :: ls) (p0 :: ps) start_index).hasArc []
      ⟨[(l0 :: ls).getLastD l0], [(p0 :: ps).getLastD p0],
        start_index + ((l0 :: ls).length : Int) - 1⟩
      ⟨[], [], (g.letters.length : Int)⟩ = true := by
  unfold Lattice.add
  dsimp only
  simp only [create_or_find_node_snd]
  set g1 := (g.create_or_find_node [l0] [p0] start_index).1 with hg1
  set g2 := (g1.create_or_find_node [(l0 :: ls).getLastD l0] [(p0 :: ps).getLastD p0]
    (start_index + ((l0 :: ls).length : Int) - 1)).1 with hg2
  set g3 := (g2.create_or_iterate_arc ((List.drop 1 (p0 :: ps)).dropLast)
    ⟨[l0], [p0], start_index⟩
    ⟨[(l0 :: ls).getLastD l0], [(p0 :: ps).getLastD p0],
      start_index + ((l0 :: ls).length : Int) - 1⟩).1 with hg3
  have hl3 : g3.letters = g.letters := by
    rw [hg3, create_or_iterate_arc_letters, hg2, create_or_find_node_letters, hg1,
      create_or_find_node_letters]
  rw [if_neg h0, if_pos (by rw [hl3]; exact hend)]
  have hEnd : (⟨[], [], (g.letters.length : Int)⟩ : Node) = g3.END_NODE := by
    unfold Lattice.END_NODE
    rw [hl3]
  rw [hEnd]
  exact hasArc_create_or_iterate ..

/-- Claim C3 amended-theorem witness: the call `add("b", "y", 1)` on a fresh
two-letter lattice reaches the last letter from a nonzero start and creates
the connector to END. -/
theorem add_end_connector_of_reaches_last_witness :
    (((Lattice.init ['a', 'b']).add ['b'] ['y'] 1).hasArc []
      ⟨['b'], ['y'], 1⟩ ⟨[], [], 2⟩) = true := by
  have h := add_end_connector_of_reaches_last (Lattice.init ['a', 'b']) 'b' 'y' [] [] 1
    (by decide) (by decide)
  simpa using h

/-! ### Lemmas for claim C8 (arc idempotence and count monotonicity) -/

lemma arcKeyIs_iff (i : List Char) (a b : Node) (x : Arc) :
    arcKeyIs i a b x = true ↔
      x.from_node = a ∧ x.intermediate_phonemes = i ∧ x.to_node = b := by
  simp [arcKeyIs, Bool.and_eq_true, and_assoc]

lemma arcKeyIs_disjoint (i2 : List Char) (a2 b2 : Node) (i : List Char) (a b : Node)
    (hne : a2 ≠ a ∨ i2 ≠ i ∨ b2 ≠ b) :
    ∀ x : Arc, arcKeyIs i2 a2 b2 x = true → arcKeyIs i a b x = false := by
  intro x hx
  obtain ⟨hf, hi, ht⟩ := (arcKeyIs_iff i2 a2 b2 x).mp hx
  by_contra hcon
  rw [Bool.not_eq_false] at hcon
  obtain ⟨hf2, hi2, ht2⟩ := (arcKeyIs_iff i a b x).mp hcon
  rcases hne with hne | hne | hne
  · exact hne (by rw [← hf, hf2])
  · exact hne (by rw [← hi, hi2])
  · exact hne (by rw [← ht, ht2])

lemma find?_append_of_neg {α : Type} (q : α → Bool) (l : List α) (x : α)
    (hx : q x = false) : (l ++ [x]).find? q = l.find? q := by
  induction l with
  | nil => simp [List.find?, hx]
  | cons h t ih =>
    cases hqh : q h with
    | true => simp [List.find?, hqh]
    | false => simpa [List.find?, hqh] using ih

lemma find?_append_of_none {α : Type} (q : α → Bool) (l l2 : List α)
    (hl : l.find? q = none) : (l ++ l2).find? q = l2.find? q := by
  induction l with
  | nil => simp
  | cons h t ih =>
    cases hqh : q h with
    | true => simp [List.find?, hqh] at hl
    | false =>
      simp only [List.find?, hqh] at hl
      simpa [List.find?, hqh] using ih hl

lemma find?_updateFirstArc_of_not (p q : Arc → Bool) (v : Arc) (l : List Arc)
    (hv : q v = false) (h : ∀ x, p x = true → q x = false) :
    (updateFirstArc p v l).find? q = l.find? q := by
  induction l with
  | nil => rfl
  | cons hd t ih =>
    cases hph : p hd with
    | true =>
      have hqh : q hd = false := h hd hph
      simp [updateFirstArc, hph, List.find?, hv, hqh]
    | false =>
      cases hqh : q hd with
      | true => simp [updateFirstArc, hph, List.find?, hqh]
      | false => simpa [updateFirstArc, hph, List.find?, hqh] using ih

lemma filter_updateFirstArc_of_not (p q : Arc → Bool) (v : Arc) (l : List Arc)
    (hv : q v = false) (h : ∀ x, p x = true → q x = false) :
    (updateFirstArc p v l).filter q = l.filter q := by
  induction l with
  | nil => rfl
  | cons hd t ih =>
    cases hph : p hd with
    | true =>
      have hqh : q hd = false := h hd hph
      simp [updateFirstArc, hph, List.filter, hv, hqh]
    | false =>
      cases hqh : q hd with
      | true => simpa [updateFirstArc, hph, List.filter, hqh] using ih
      | false => simpa [updateFirstArc, hph, List.filter, hqh] using ih

lemma filter_updateFirstArc_same (p q : Arc → Bool) (v : Arc) (l : List Arc)
    (hq : ∀ x, p x = true → q x = q v) :
    ((updateFirstArc p v l).filter q).length = (l.filter q).length := by
  induction l with
  | nil => rfl
  | cons hd t ih =>
    cases hph : p hd with
    | true =>
      have hqh : q hd = q v := hq hd hph
      cases hqv : q v with
      | true => simp [updateFirstArc, hph, List.filter, hqv, hqh ▸ hqv]
      | false => simp [updateFirstArc, hph, List.filter, hqv, hqh ▸ hqv]
    | false =>
      cases hqh : q hd with
      | true => simpa [updateFirstArc, hph, List.filter, hqh] using ih
      | false => simpa [updateFirstArc, hph, List.filter, hqh] using ih

/-- Effect of `create_or_iterate_arc` on the count stored under its own key. -/
lemma arcCount_cia_self (g : Lattice) (i : List Char) (a b : Node) :
    ((g.create_or_iterate_arc i a b).1).arcCount i a b =
      if g.hasArc i a b then
        g.arcCount i a b +
          (if ([g.START_NODE, g.END_NODE].contains a || [g.START_NODE, g.END_NODE].contains b)
            then 0 else 1)
      else 1 := by
  unfold Lattice.create_or_iterate_arc Lattice.hasArc Lattice.arcCount
  cases hfind : g.arcs.find? (arcKeyIs i a b) with
  | none =>
    dsimp only
    rw [find?_append_of_none _ _ _ hfind]
    simp [List.find?, arcKeyIs, hfind]
  | some found =>
    dsimp only
    obtain ⟨hf, hi, ht⟩ := (arcKeyIs_iff i a b found).mp (List.find?_some hfind)
    have hl1 : (g.arcs.find? (arcKeyIs i a b)).isSome = true := by rw [hfind]; rfl
    have hv1 : ∀ k, arcKeyIs i a b { found with count := k } = true :=
      fun k => by rw [arcKeyIs_set_count]; exact List.find?_some hfind
    rw [updateFirstArc_find?_self _ _ _ hl1 (hv1 _)]
    simp [hfind, Arc.contains, hf, ht]

/-- Effect of `create_or_iterate_arc` on the number of stored arc objects
carrying its own key. -/
lemma arcsWithKey_cia_self (g : Lattice) (i : List Char) (a b : Node) :
    ((g.create_or_iterate_arc i a b).1).arcsWithKey i a b =
      if g.hasArc i a b then g.arcsWithKey i a b else g.arcsWithKey i a b + 1 := by
  unfold Lattice.create_or_iterate_arc Lattice.hasArc Lattice.arcsWithKey
  cases hfind : g.arcs.find? (arcKeyIs i a b) with
  | none =>
    dsimp only
    rw [List.filter_append]
    simp [hfind, List.filter, arcKeyIs]
  | some found =>
    dsimp only
    have hq1 : ∀ k, ∀ x : Arc, arcKeyIs i a b x = true →
        arcKeyIs i a b x = arcKeyIs i a b { found with count := k } := by
      intro k x hx
      rw [arcKeyIs_set_count]
      obtain ⟨hf2, hi2, ht2⟩ := (arcKeyIs_iff i a b found).mp (List.find?_some hfind)
      rw [hx]
      symm
      exact (arcKeyIs_iff i a b found).mpr ⟨hf2, hi2, ht2⟩
    rw [filter_updateFirstArc_same _ _ _ _ (hq1 _)]
    simp [hfind]

/-- `create_or_iterate_arc` with one key leaves the count under a different
key unchanged. -/
lemma arcCount_cia_other (g : Lattice) (i2 : List Char) (a2 b2 : Node)
    (i : List Char) (a b : Node)
    (hne : a2 ≠ a ∨ i2 ≠ i ∨ b2 ≠ b) :
    ((g.create_or_iterate_arc i2 a2 b2).1).arcCount i a b = g.arcCount i a b := by
  have hkey := arcKeyIs_disjoint i2 a2 b2 i a b hne
  unfold Lattice.create_or_iterate_arc Lattice.arcCount
  cases hfind : g.arcs.find? (arcKeyIs i2 a2 b2) with
  | none =>
    dsimp only
    rw [find?_append_of_neg _ _ _ (hkey _ (by simp [arcKeyIs]))]
  | some found =>
    dsimp only
    have hv1 : ∀ k, arcKeyIs i a b { found with count := k } = false :=
      fun k => by rw [arcKeyIs_set_count]; exact hkey found (List.find?_some hfind)
    rw [find?_updateFirstArc_of_not _ _ _ _ (hv1 _) hkey]

/-- `create_or_iterate_arc` with one key leaves the object multiplicity under
a different key unchanged. -/
lemma arcsWithKey_cia_other (g : Lattice) (i2 : List Char) (a2 b2 : Node)
    (i : List Char) (a b : Node)
    (hne : a2 ≠ a ∨ i2 ≠ i ∨ b2 ≠ b) :
    ((g.create_or_iterate_arc i2 a2 b2).1).arcsWithKey i a b = g.arcsWithKey i a b := by
  have hkey := arcKeyIs_disjoint i2 a2 b2 i a b hne
  unfold Lattice.create_or_iterate_arc Lattice.arcsWithKey
  cases hfind : g.arcs.find? (arcKeyIs i2 a2 b2) with
  | none =>
    dsimp only
    rw [List.filter_append]
    simp [hkey _ (by simp [arcKeyIs] : arcKeyIs i2 a2 b2
      { from_node := a2, intermediate_phonemes := i2, to_node := b2, count := 1 } = true)]
  | some found =>
    dsimp only
    have hv1 : ∀ k, arcKeyIs i a b { found with count := k } = false :=
      fun k => by rw [arcKeyIs_set_count]; exact hkey found (List.find?_some hfind)
    rw [filter_updateFirstArc_of_not _ _ _ _ (hv1 _) hkey]

/-- `create_or_iterate_arc` also preserves `hasArc` under a different key. -/
lemma hasArc_cia_other (g : Lattice) (i2 : List Char) (a2 b2 : Node)
    (i : List Char) (a b : Node)
    (hne : a2 ≠ a ∨ i2 ≠ i ∨ b2 ≠ b) :
    ((g.create_or_iterate_arc i2 a2 b2).1).hasArc i a b = g.hasArc i a b := by
  have hkey := arcKeyIs_disjoint i2 a2 b2 i a b hne
  unfold Lattice.create_or_iterate_arc Lattice.hasArc
  cases hfind : g.arcs.find? (arcKeyIs i2 a2 b2) with
  | none =>
    dsimp only
    rw [find?_append_of_neg _ _ _ (hkey _ (by simp [arcKeyIs]))]
  | some found =>
    dsimp only
    have hv1 : ∀ k, arcKeyIs i a b { found with count := k } = false :=
      fun k => by rw [arcKeyIs_set_count]; exact hkey found (List.find?_some hfind)
    rw [find?_updateFirstArc_of_not _ _ _ _ (hv1 _) hkey]

lemma arcCount_cfn (g : Lattice) (l p : List Char) (j : Int) (i : List Char) (a b : Node) :
    ((g.create_or_find_node l p j).1).arcCount i a b = g.arcCount i a b := by
  unfold Lattice.arcCount
  rw [create_or_find_node_arcs]

lemma hasArc_cfn (g : Lattice) (l p : List Char) (j : Int) (i : List Char) (a b : Node) :
    ((g.create_or_find_node l p j).1).hasArc i a b = g.hasArc i a b := by
  unfold Lattice.hasArc
  rw [create_or_find_node_arcs]

lemma arcsWithKey_cfn (g : Lattice) (l p : List Char) (j : Int) (i : List Char) (a b : Node) :
    ((g.create_or_find_node l p j).1).arcsWithKey i a b = g.arcsWithKey i a b := by
  unfold Lattice.arcsWithKey
  rw [create_or_find_node_arcs]

lemma singleton_node_ne_sentinel (c : Char) (p : List Char) (j : Int) (q : List Char) (k : Int) :
    (⟨[c], p, j⟩ : Node) ≠ ⟨[], q, k⟩ := by
  intro h
  exact absurd (congrArg Node.matched_letter h) (by simp)

/-- The effect of one `add` call on the identity key of the span's main arc:
the count is incremented when present (the span-endpoint nodes are never
sentinels, so the sentinel guard never fires) or created at 1, the object is
unique if it was, and the key is present afterwards. -/
lemma add_main_key_effect (g : Lattice) (l0 p0 : Char) (ls ps : List Char) (si : Int) :
    ((g.add (l0 :: ls) (p0 :: ps) si).arcCount ((List.drop 1 (p0 :: ps)).dropLast)
        ⟨[l0], [p0], si⟩
        ⟨[(l0 :: ls).getLastD l0], [(p0 :: ps).getLastD p0],
          si + ((l0 :: ls).length : Int) - 1⟩ =
      if g.hasArc ((List.drop 1 (p0 :: ps)).dropLast) ⟨[l0], [p0], si⟩
          ⟨[(l0 :: ls).getLastD l0], [(p0 :: ps).getLastD p0],
            si + ((l0 :: ls).length : Int) - 1⟩ then
        g.arcCount ((List.drop 1 (p0 :: ps)).dropLast) ⟨[l0], [p0], si⟩
          ⟨[(l0 :: ls).getLastD l0], [(p0 :: ps).getLastD p0],
            si + ((l0 :: ls).length : Int) - 1⟩ + 1
      else 1) ∧
    ((g.add (l0 :: ls) (p0 :: ps) si).arcsWithKey ((List.drop 1 (p0 :: ps)).dropLast)
        ⟨[l0], [p0], si⟩
        ⟨[(l0 :: ls).getLastD l0], [(p0 :: ps).getLastD p0],
          si + ((l0 :: ls).length : Int) - 1⟩ =
      if g.hasArc ((List.drop 1 (p0 :: ps)).dropLast) ⟨[l0], [p0], si⟩
          ⟨[(l0 :: ls).getLastD l0], [(p0 :: ps).getLastD p0],
            si + ((l0 :: ls).length : Int) - 1⟩ then
        g.arcsWithKey ((List.drop 1 (p0 :: ps)).dropLast) ⟨[l0], [p0], si⟩
          ⟨[(l0 :: ls).getLastD l0], [(p0 :: ps).getLastD p0],
            si + ((l0 :: ls).length : Int) - 1⟩
      else g.arcsWithKey ((List.drop 1 (p0 :: ps)).dropLast) ⟨[l0], [p0], si⟩
          ⟨[(l0 :: ls).getLastD l0], [(p0 :: ps).getLastD p0],
            si + ((l0 :: ls).length : Int) - 1⟩ + 1) ∧
    ((g.add (l0 :: ls) (p0 :: ps) si).hasArc ((List.drop 1 (p0 :: ps)).dropLast)
        ⟨[l0], [p0], si⟩
        ⟨[(l0 :: ls).getLastD l0], [(p0 :: ps).getLastD p0],
          si + ((l0 :: ls).length : Int) - 1⟩ = true) := by
  set inter := (List.drop 1 (p0 :: ps)).dropLast with hinter
  set a : Node := ⟨[l0], [p0], si⟩ with ha
  set b : Node := ⟨[(l0 :: ls).getLastD l0], [(p0 :: ps).getLastD p0],
    si + ((l0 :: ls).length : Int) - 1⟩ with hb
  unfold Lattice.add
  dsimp only
  simp only [create_or_find_node_snd]
  rw [← ha, ← hb, ← hinter]
  set g1 := (g.create_or_find_node [l0] [p0] si).1 with hg1
  set g2 := (g1.create_or_find_node [(l0 :: ls).getLastD l0] [(p0 :: ps).getLastD p0]
    (si + ((l0 :: ls).length : Int) - 1)).1 with hg2
  set g3 := (g2.create_or_iterate_arc inter a b).1 with hg3
  -- the main-arc key never touches a sentinel
  have hcontains : ([g2.START_NODE, g2.END_NODE].contains a ||
      [g2.START_NODE, g2.END_NODE].contains b) = false := by
    simp only [Lattice.START_NODE, Lattice.END_NODE, List.contains, List.elem,
      Bool.or_eq_false_iff]
    constructor <;> constructor <;>
      simp [beq_eq_false_iff_ne, ha, hb, singleton_node_ne_sentinel]
  -- effect of the main create_or_iterate_arc
  have hcount3 : g3.arcCount inter a b =
      if g.hasArc inter a b then g.arcCount inter a b + 1 else 1 := by
    rw [hg3, arcCount_cia_self, hcontains]
    rw [hg2, hasArc_cfn, arcCount_cfn, hg1, hasArc_cfn, arcCount_cfn]
    split <;> simp
  have hwk3 : g3.arcsWithKey inter a b =
      if g.hasArc inter a b then g.arcsWithKey inter a b else g.arcsWithKey inter a b + 1 := by
    rw [hg3, arcsWithKey_cia_self]
    rw [hg2, hasArc_cfn, arcsWithKey_cfn, hg1, hasArc_cfn, arcsWithKey_cfn]
  have hhas3 : g3.hasArc inter a b = true := hg3 ▸ hasArc_create_or_iterate ..
  -- the two possible connector arcs carry keys different from the main key
  have hneS : g3.START_NODE ≠ a ∨ ([] : List Char) ≠ inter ∨ a ≠ b :=
    Or.inl (fun h => singleton_node_ne_sentinel l0 [p0] si [] (-1) h.symm)
  have hneE : b ≠ a ∨ ([] : List Char) ≠ inter ∨ g3.END_NODE ≠ b :=
    Or.inr (Or.inr (fun h => singleton_node_ne_sentinel
      ((l0 :: ls).getLastD l0) [(p0 :: ps).getLastD p0]
      (si + ((l0 :: ls).length : Int) - 1) [] (g3.letters.length : Int) h.symm))
  by_cases hsi : si = 0
  · rw [if_pos hsi]
    refine ⟨?_, ?_, ?_⟩
    · rw [arcCount_cia_other _ _ _ _ _ _ _ hneS, hcount3]
    · rw [arcsWithKey_cia_other _ _ _ _ _ _ _ hneS, hwk3]
    · rw [hasArc_cia_other _ _ _ _ _ _ _ hneS, hhas3]
  · rw [if_neg hsi]
    by_cases hc : si + ((l0 :: ls).length : Int) = (g3.letters.length : Int)
    · rw [if_pos hc]
      refine ⟨?_, ?_, ?_⟩
      · rw [arcCount_cia_other _ _ _ _ _ _ _ hneE, hcount3]
      · rw [arcsWithKey_cia_other _ _ _ _ _ _ _ hneE, hwk3]
      · rw [hasArc_cia_other _ _ _ _ _ _ _ hneE, hhas3]
    · rw [if_neg hc]
      exact ⟨hcount3, hwk3, hhas3⟩

/-- Monotonicity of the stored count under `create_or_iterate_arc`. -/
lemma arcCount_cia_mono (g : Lattice) (i2 : List Char) (a2 b2 : Node)
    (i : List Char) (a b : Node) :
    g.arcCount i a b ≤ ((g.create_or_iterate_arc i2 a2 b2).1).arcCount i a b := by
  by_cases hk : a2 = a ∧ i2 = i ∧ b2 = b
  · obtain ⟨h1, h2, h3⟩ := hk
    subst h1
    subst h2
    subst h3
    rw [arcCount_cia_self]
    by_cases hh : g.hasArc i2 a2 b2 = true
    · rw [if_pos hh]
      omega
    · rw [if_neg hh]
      have : g.arcCount i2 a2 b2 = 0 := by
        unfold Lattice.hasArc at hh
        unfold Lattice.arcCount
        cases hf : g.arcs.find? (arcKeyIs i2 a2 b2) with
        | none => rfl
        | some x => rw [hf] at hh; simp at hh
      omega
  · rw [arcCount_cia_other]
    push_neg at hk
    by_cases h1 : a2 = a
    · by_cases h2 : i2 = i
      · exact Or.inr (Or.inr (hk h1 h2))
      · exact Or.inr (Or.inl h2)
    · exact Or.inl h1

/-- Monotonicity of stored counts under `add` (claim C8's "arc counts never
decrease"): `add` is the sole operation that touches the arc store, and its
constituent `create_or_iterate_arc` calls only increment. -/
lemma arcCount_add_mono (g : Lattice) (sub_letters sub_phones : List Char)
    (start_index : Int) (i : List Char) (a b : Node) :
    g.arcCount i a b ≤ (g.add sub_letters sub_phones start_index).arcCount i a b := by
  match sub_letters, sub_phones with
  | [], _ => exact le_refl _
  | _ :: _, [] => exact le_refl _
  | l0 :: ls, p0 :: ps =>
    unfold Lattice.add
    dsimp only
    set g1 := (g.create_or_find_node [l0] [p0] start_index).1 with hg1
    set g2 := (g1.create_or_find_node [(l0 :: ls).getLastD l0] [(p0 :: ps).getLastD p0]
      (start_index + ((l0 :: ls).length : Int) - 1)).1 with hg2
    have step12 : g.arcCount i a b = g2.arcCount i a b := by
      rw [hg2, arcCount_cfn, hg1, arcCount_cfn]
    have step3 := arcCount_cia_mono g2 (List.dropLast (List.drop 1 (p0 :: ps)))
      (g.create_or_find_node [l0] [p0] start_index).2
      (g1.create_or_find_node [(l0 :: ls).getLastD l0] [(p0 :: ps).getLastD p0]
        (start_index + ((l0 :: ls).length : Int) - 1)).2 i a b
    set g3 := (g2.create_or_iterate_arc (List.dropLast (List.drop 1 (p0 :: ps)))
      (g.create_or_find_node [l0] [p0] start_index).2
      (g1.create_or_find_node [(l0 :: ls).getLastD l0] [(p0 :: ps).getLastD p0]
        (start_index + ((l0 :: ls).length : Int) - 1)).2).1 with hg3
    have base : g.arcCount i a b ≤ g3.arcCount i a b := step12 ▸ step3
    by_cases hsi : start_index = 0
    · rw [if_pos hsi]
      exact le_trans base (arcCount_cia_mono ..)
    · rw [if_neg hsi]
      by_cases hc : start_index + ((l0 :: ls).length : Int) = (g3.letters.length : Int)
      · rw [if_pos hc]
        exact le_trans base (arcCount_cia_mono ..)
      · rw [if_neg hc]
        exact base

/-- Claim C8: re-submitting an identical correspondence `(letter_span,
symbol_span, start_index)` to a fresh lattice yields, under the span's arc
key, a single stored arc object whose count is 2 after the second `add`
(`create_or_iterate_arc` increments, never duplicates); and no `add` ever
decreases a stored arc count. -/
theorem add_idempotent_arc_count :
    (∀ (letters : List Char) (l0 p0 : Char) (ls ps : List Char) (si : Int),
      (((Lattice.init letters).add (l0 :: ls) (p0 :: ps) si).add (l0 :: ls) (p0 :: ps)
          si).arcCount ((List.drop 1 (p0 :: ps)).dropLast) ⟨[l0], [p0], si⟩
          ⟨[(l0 :: ls).getLastD l0], [(p0 :: ps).getLastD p0],
            si + ((l0 :: ls).length : Int) - 1⟩ = 2 ∧
      (((Lattice.init letters).add (l0 :: ls) (p0 :: ps) si).add (l0 :: ls) (p0 :: ps)
          si).arcsWithKey ((List.drop 1 (p0 :: ps)).dropLast) ⟨[l0], [p0], si⟩
          ⟨[(l0 :: ls).getLastD l0], [(p0 :: ps).getLastD p0],
            si + ((l0 :: ls).length : Int) - 1⟩ = 1) ∧
    (∀ (g : Lattice) (sub_letters sub_phones : List Char) (start_index : Int)
      (i : List Char) (a b : Node),
      g.arcCount i a b ≤ (g.add sub_letters sub_phones start_index).arcCount i a b) := by
  refine ⟨?_, arcCount_add_mono⟩
  intro letters l0 p0 ls ps si
  obtain ⟨hc1, hw1, hh1⟩ := add_main_key_effect (Lattice.init letters) l0 p0 ls ps si
  obtain ⟨hc2, hw2, hh2⟩ := add_main_key_effect
    ((Lattice.init letters).add (l0 :: ls) (p0 :: ps) si) l0 p0 ls ps si
  have hinit_has : (Lattice.init letters).hasArc ((List.drop 1 (p0 :: ps)).dropLast)
      ⟨[l0], [p0], si⟩
      ⟨[(l0 :: ls).getLastD l0], [(p0 :: ps).getLastD p0],
        si + ((l0 :: ls).length : Int) - 1⟩ = false := rfl
  have hinit_wk : (Lattice.init letters).arcsWithKey ((List.drop 1 (p0 :: ps)).dropLast)
      ⟨[l0], [p0], si⟩
      ⟨[(l0 :: ls).getLastD l0], [(p0 :: ps).getLastD p0],
        si + ((l0 :: ls).length : Int) - 1⟩ = 0 := rfl
  rw [hinit_has] at hc1 hw1
  simp only [Bool.false_eq_true, if_false] at hc1 hw1
  rw [hh1] at hc2 hw2
  simp only [if_true] at hc2 hw2
  rw [hinit_wk] at hw1
  exact ⟨by rw [hc2, hc1], by rw [hw2, hw1]⟩

/-! ### Lemmas for claims C6, C10, C1 (heuristic scorer) -/

lemma exMapM_ok_length {α β : Type} (f : α → Except PyErr β) (l : List α) (l2 : List β)
    (h : exMapM f l = .ok l2) : l2.length = l.length := by
  induction l generalizing l2 with
  | nil =>
    simp only [exMapM] at h
    cases h
    rfl
  | cons x xs ih =>
    simp only [exMapM] at h
    cases hx : f x with
    | error e => rw [hx] at h; exact absurd h (by simp)
    | ok y =>
      rw [hx] at h
      cases hxs : exMapM f xs with
      | error e => rw [hxs] at h; exact absurd h (by simp)
      | ok ys =>
        rw [hxs] at h
        cases h
        simp [ih ys hxs]

lemma exMapM_ok_getElem {α β : Type} (f : α → Except PyErr β) (l : List α) (l2 : List β)
    (h : exMapM f l = .ok l2) (k : Nat) (hk : k < l.length) (hk2 : k < l2.length) :
    f (l[k]) = .ok (l2[k]) := by
  induction l generalizing l2 k with
  | nil => exact absurd hk (by simp)
  | cons x xs ih =>
    simp only [exMapM] at h
    cases hx : f x with
    | error e => rw [hx] at h; exact absurd h (by simp)
    | ok y =>
      rw [hx] at h
      cases hxs : exMapM f xs with
      | error e => rw [hxs] at h; exact absurd h (by simp)
      | ok ys =>
        rw [hxs] at h
        cases h
        match k with
        | 0 => simpa using hx
        | Nat.succ k' =>
          simp only [List.getElem_cons_succ]
          exact ih ys hxs k' (by simpa using hk) (by simpa using hk2)

/-- Any successful outcome of the scorer's loop body only rewrites the six
heuristic fields; the path, arcs, symbol buffers, pronunciation, length and
`arc_count_sum` are untouched, and the deviation field receives exactly the
sample variance of the candidate's arc span-lengths. -/
lemma compute_heuristics_step_ok (g : Lattice) (cs1 : List Candidate)
    (maps : List (List Char × Nat) × List (List Char × Nat)) (p : Nat × Candidate)
    (y : Candidate) (h : g.compute_heuristics_step cs1 maps p = .ok y) :
    y.path = p.2.path ∧ y.arcs = p.2.arcs ∧ y.path_strings = p.2.path_strings ∧
    y.pronunciation = p.2.pronunciation ∧ y.length = p.2.length ∧
    y.arc_count_sum = p.2.arc_count_sum ∧ y.arc_count_product = p.2.arc_count_product ∧
    y.path_structure_variance = sampleVariance (p.2.arcs.map Arc.structure_component) := by
  unfold Lattice.compute_heuristics_step at h
  dsimp only at h
  split at h
  · exact absurd h (by simp)
  · split at h
    · exact absurd h (by simp)
    · split at h
      · exact absurd h (by simp)
      · cases h
        exact ⟨rfl, rfl, rfl, rfl, rfl, rfl, rfl, rfl⟩

/-- Positional description of a successful `compute_heuristics` run: the
output has the input's length and its k-th candidate is a frame-preserving
update of the k-th input whose deviation field holds the sample variance of
the k-th input's arc span-lengths. -/
lemma compute_heuristics_spec (g : Lattice) (cs cs' : List Candidate)
    (h : g.compute_heuristics cs = .ok cs') :
    cs'.length = cs.length ∧
    ∀ (k : Nat) (hk : k < cs.length) (hk' : k < cs'.length),
      (cs'[k]).path = (cs[k]).path ∧ (cs'[k]).arcs = (cs[k]).arcs ∧
      (cs'[k]).path_strings = (cs[k]).path_strings ∧
      (cs'[k]).pronunciation = (cs[k]).pronunciation ∧
      (cs'[k]).length = (cs[k]).length ∧
      (cs'[k]).arc_count_sum = (cs[k]).arc_count_sum ∧
      (cs'[k]).path_structure_variance =
        sampleVariance ((cs[k]).arcs.map Arc.structure_component) := by
  unfold Lattice.compute_heuristics at h
  dsimp only at h
  have hlen := exMapM_ok_length _ _ _ h
  have hlen2 : cs'.length = cs.length := by simpa using hlen
  refine ⟨hlen2, ?_⟩
  intro k hk hk'
  have hget := exMapM_ok_getElem _ _ _ h k (by simpa using hk) hk'
  rw [List.getElem_enum] at hget
  obtain ⟨h1, h2, h3, h4, h5, h6, _h7, h8⟩ := compute_heuristics_step_ok _ _ _ _ _ hget
  rw [List.getElem_map] at h1 h2 h3 h4 h5 h6 h8
  exact ⟨h1, h2, h3, h4, h5, h6, h8⟩

/-! ### Claim C6 -/

/-- Concrete five-letter lattice for the standard-deviation claims. -/
def gFive : Lattice := Lattice.init ['a', 'b', 'c', 'd', 'e']

/-- A candidate whose two interior arcs have span lengths 1 and 3 (counts 2
and 3). -/
def candSpans : Candidate :=
  { Candidate.empty with
    arcs := [⟨⟨['a'], ['x'], 0⟩, [], ⟨['b'], ['y'], 1⟩, 2⟩,
             ⟨⟨['b'], ['y'], 1⟩, [], ⟨['e'], ['w'], 4⟩, 3⟩]
    pronunciation := ['x']
    length := 2 }

/-- The candidate produced for `candSpans` by a successful
`compute_heuristics` run (the fallback default is unreachable, as the
counterexample's second conjunct proves). -/
def candSpansOut : Candidate :=
  match gFive.compute_heuristics [candSpans] with
  | .ok cs => cs.headD Candidate.empty
  | .error _ => Candidate.empty

/-- Claim C6 counterexample: on the candidate with arc span-lengths `[1, 3]`
the computed `path_structure_standard_deviation` is `sqrt 2` — the sample
standard deviation produced by `statistics.stdev` with divisor `n - 1` — and
not the population standard deviation 1 claimed by the specification. -/
theorem stdev_is_not_population_stdev :
    gFive.compute_heuristics [candSpans] = .ok [candSpansOut] ∧
    candSpansOut.stdevR ≠ popStdDev (candSpans.arcs.map Arc.structure_component) := by
  refine ⟨by rfl, ?_⟩
  have h1 : candSpansOut.path_structure_variance = ⟨32, 16⟩ := by decide
  have h2 : popVariance (candSpans.arcs.map Arc.structure_component) = ⟨32, 32⟩ := by decide
  unfold Candidate.stdevR popStdDev
  rw [h1, h2]
  have e1 : (Frac.toReal ⟨32, 16⟩) = 2 := by
    unfold Frac.toReal
    norm_num
  have e2 : (Frac.toReal ⟨32, 32⟩) = 1 := by
    unfold Frac.toReal
    norm_num
  rw [e1, e2, Real.sqrt_one]
  intro hcon
  have hsq := congrArg (fun x : ℝ => x ^ 2) hcon
  simp only at hsq
  rw [Real.sq_sqrt (by norm_num : (0 : ℝ) ≤ 2)] at hsq
  norm_num at hsq

/-- Claim C6, amended: for every candidate scored by `compute_heuristics`,
the computed `path_structure_standard_deviation` equals the SAMPLE standard
deviation (divisor `n - 1`, Python's `statistics.stdev`) of the span lengths
of the candidate's arcs — not the population standard deviation. -/
theorem stdev_is_sample_stdev (g : Lattice) (cs cs' : List Candidate)
    (h : g.compute_heuristics cs = .ok cs') (k : Nat) (hk : k < cs.length)
    (hk' : k < cs'.length) :
    (cs'[k]).path_structure_variance =
      sampleVariance ((cs[k]).arcs.map Arc.structure_component) ∧
    (cs'[k]).stdevR = sampleStdDev ((cs[k]).arcs.map Arc.structure_component) := by
  obtain ⟨_, hpos⟩ := compute_heuristics_spec g cs cs' h
  obtain ⟨_, _, _, _, _, _, hvar⟩ := hpos k hk hk'
  refine ⟨hvar, ?_⟩
  unfold Candidate.stdevR sampleStdDev
  rw [hvar]

/-- Claim C6 amended-theorem witness at the concrete input. -/
theorem stdev_is_sample_stdev_witness :
    candSpansOut.path_structure_variance =
      sampleVariance (candSpans.arcs.map Arc.structure_component) ∧
    candSpansOut.stdevR = sampleStdDev (candSpans.arcs.map Arc.structure_component) := by
  have h := stdev_is_sample_stdev gFive [candSpans] [candSpansOut] (by rfl) 0
    (by decide) (by decide)
  simpa using h

/-! ### Claim C9 -/

lemma diffSymbols_ok_of_le (a b : List Char) (h : a.length ≤ b.length) :
    ∃ n, diffSymbols a b = .ok n := by
  induction a generalizing b with
  | nil => exact ⟨0, rfl⟩
  | cons c cs ih =>
    cases b with
    | nil => exact absurd h (by simp)
    | cons o os =>
      obtain ⟨n, hn⟩ := ih os (by simpa using h)
      exact ⟨(if c ≠ o then 1 else 0) + n, by simp [diffSymbols, hn]⟩

lemma exMapM_ok_of_forall {α β : Type} (f : α → Except PyErr β) (l : List α)
    (h : ∀ x ∈ l, ∃ y, f x = .ok y) : ∃ ys, exMapM f l = .ok ys := by
  induction l with
  | nil => exact ⟨[], rfl⟩
  | cons x xs ih =>
    obtain ⟨y, hy⟩ := h x (by simp)
    obtain ⟨ys, hys⟩ := ih (fun z hz => h z (by simp [hz]))
    exact ⟨y :: ys, by simp [exMapM, hy, hys]⟩

lemma firstMinByInt_const {α : Type} (val : α → Int) (c0 : α) (rest : List α)
    (h : ∀ y ∈ rest, ¬ val y < val c0) : firstMinByInt val (c0 :: rest) = some c0 := by
  unfold firstMinByInt
  induction rest with
  | nil => rfl
  | cons y ys ih =>
    simp only [List.foldl_cons, if_neg (h y (by simp))]
    exact ih (fun z hz => h z (by simp [hz]))

/-- Claim C9: on any candidate list of two or more equal-length candidates
each of whose arcs all touch START or END — the shape every complete path
over a one-letter target word has — `compute_heuristics` reaches
`min([arc.count for arc in ... if not arc.contains([START, END])])` with an
empty sequence and raises; `decide` on such a list therefore fails with that
`ValueError` instead of producing its result mapping.  (The first candidate
must carry at least two arcs so that `statistics.stdev` does not raise
first, and no competitor pronunciation may be shorter than the first
candidate's, so that the symbol-mismatch loop does not raise first; both
hold for complete boundary-only paths, whose two connector arcs and
equal-length pronunciations arise together.) -/
theorem decide_min_of_empty_crash (g : Lattice) (c0 : Candidate) (rest : List Candidate)
    (hrest : rest ≠ [])
    (hlen : ∀ c ∈ c0 :: rest, c.length = c0.length)
    (harcs2 : 2 ≤ c0.arcs.length)
    (hpron : ∀ c ∈ c0 :: rest, c0.pronunciation.length ≤ c.pronunciation.length)
    (hbound : ∀ a ∈ c0.arcs, a.contains [g.START_NODE, g.END_NODE] = true) :
    g.decide (.candidateList (c0 :: rest)) = .error .minEmpty := by
  have hch : g.compute_heuristics (c0 :: rest) = .error .minEmpty := by
    unfold Lattice.compute_heuristics
    dsimp only
    rw [List.map_cons, List.enum_cons]
    have hstep : g.compute_heuristics_step
        (({ c0 with arc_count_product := prodCounts c0.arcs }) ::
          (rest.map (fun c => { c with arc_count_product := prodCounts c.arcs })))
        (g.get_frequencies_by_pronunciation
          (({ c0 with arc_count_product := prodCounts c0.arcs }) ::
            (rest.map (fun c => { c with arc_count_product := prodCounts c.arcs }))))
        (0, { c0 with arc_count_product := prodCounts c0.arcs }) = .error .minEmpty := by
      unfold Lattice.compute_heuristics_step
      dsimp only
      rw [if_neg (by simpa using Nat.not_lt.mpr harcs2)]
      obtain ⟨diffs, hdiffs⟩ := exMapM_ok_of_forall
        (fun o => diffSymbols c0.pronunciation o.pronunciation)
        (rest.map (fun c => { c with arc_count_product := prodCounts c.arcs }))
        (by
          intro x hx
          obtain ⟨c, hc, hceq⟩ := List.mem_map.mp hx
          have := hpron c (by simp [hc])
          exact diffSymbols_ok_of_le _ _ (by rw [← hceq]; exact this))
      simp only [List.take_zero, List.nil_append, Nat.zero_add, List.drop_one,
        List.tail_cons]
      rw [hdiffs]
      rw [List.filter_eq_nil.mpr (by
        intro a ha
        simp [hbound a ha])]
    rw [show exMapM (g.compute_heuristics_step _ _)
        ((0, { c0 with arc_count_product := prodCounts c0.arcs }) ::
          List.enumFrom 1 (rest.map (fun c => { c with arc_count_product := prodCounts c.arcs })))
        = .error .minEmpty from by rw [exMapM, hstep]]
  have hmin : firstMinByInt (fun c => c.length) (c0 :: rest) = some c0 :=
    firstMinByInt_const _ _ _ (by
      intro y hy
      rw [hlen y (by simp [hy])]
      omega)
  have hfilter : (c0 :: rest).filter (fun c => c.length == c0.length) = c0 :: rest :=
    List.filter_eq_self.mpr (by
      intro c hc
      simp [hlen c hc])
  unfold Lattice.decide
  dsimp only
  rw [if_neg (by simp)]
  unfold Lattice.decideCore
  rw [hmin]
  dsimp only
  rw [hfilter]
  rw [if_neg (by
    simp only [List.length_cons]
    cases rest with
    | nil => exact absurd rfl hrest
    | cons r rs => simp)]
  rw [hch]

/-- Claim C9 witness: two complete boundary-only candidates over the
one-letter word "a" (each path `START → node → END`, both arcs touching a
sentinel) make `decide` raise the empty-`min` error. -/
theorem decide_min_of_empty_crash_witness :
    (Lattice.init ['a']).decide (.candidateList
      [{ Candidate.empty with
           arcs := [⟨⟨[], [], -1⟩, [], ⟨['a'], ['x'], 0⟩, 1⟩,
                    ⟨⟨['a'], ['x'], 0⟩, [], ⟨[], [], 1⟩, 1⟩]
           pronunciation := ['x'], length := 2 },
       { Candidate.empty with
           arcs := [⟨⟨[], [], -1⟩, [], ⟨['a'], ['y'], 0⟩, 1⟩,
                    ⟨⟨['a'], ['y'], 0⟩, [], ⟨[], [], 1⟩, 1⟩]
           pronunciation := ['y'], length := 2 }]) = .error .minEmpty := by
  apply decide_min_of_empty_crash
  · decide
  · decide
  · decide
  · decide
  · decide

/-! ### Claims C5, C2, C7 (path enumerator) -/

lemma searchLoop_ok_overflow (fuel : Nat) :
    ∀ (g : Lattice) (last : Int) (s : SearchState) (r : SearchResult) (s' : SearchState)
      (g' : Lattice), g.searchLoop fuel last s = .ok (r, s', g') →
      s'.overflow = false ∨ r = .searchedTooLong := by
  induction fuel with
  | zero =>
    intro g last s r s' g' h
    exact absurd h (by simp [Lattice.searchLoop])
  | succ fuel' ih =>
    intro g last s r s' g' h
    unfold Lattice.searchLoop at h
    by_cases hc : (s.furthest_index < (g.letters.length : Int) ∧ s.overflow = false)
    · rw [if_pos hc] at h
      by_cases hst : s.furthest_index = last
      · rw [if_pos hst] at h
        simp only [Except.ok.injEq, Prod.mk.injEq] at h
        exact Or.inl (h.2.1 ▸ hc.2)
      · rw [if_neg hst] at h
        dsimp only at h
        by_cases hcand : 0 < (g.searchAttempt s).2.1.candidates.length
        · rw [if_pos hcand] at h
          exact ih _ _ _ _ _ _ h
        · rw [if_neg hcand] at h
          cases hls : (g.searchAttempt s).2.2.link_silences
              (g.searchAttempt s).2.1.furthest_index with
          | error e => rw [hls] at h; exact absurd h (by simp)
          | ok g2 =>
            rw [hls] at h
            exact ih _ _ _ _ _ _ h
    · rw [if_neg hc] at h
      simp only [Except.ok.injEq, Prod.mk.injEq] at h
      by_cases hov : s.overflow = true
      · right
        rw [← h.1, if_pos hov]
      · left
        rw [← h.2.1]
        simpa using hov

/-- Claim C5: whenever the recursive step counter exceeds its fixed ceiling
(the search state's `overflow` flag), `find_all_paths` returns the
`SEARCHED_TOO_LONG` error rather than a candidate list, regardless of how
many complete candidates have been recorded: every successful return either
has `overflow` unset, or is exactly `searchedTooLong` and in particular not
a `found` list. -/
theorem find_all_paths_overflow_forces_error (g : Lattice) (r : SearchResult)
    (s' : SearchState) (g' : Lattice) (h : g.find_all_paths = .ok (r, s', g')) :
    s'.overflow = false ∨ (r = .searchedTooLong ∧ ∀ cs, r ≠ .found cs) := by
  unfold Lattice.find_all_paths at h
  cases hlu : g.link_unrepresented with
  | error e => rw [hlu] at h; exact absurd h (by simp)
  | ok g1 =>
    rw [hlu] at h
    rcases searchLoop_ok_overflow _ _ _ _ _ _ _ h with h1 | h1
    · exact Or.inl h1
    · refine Or.inr ⟨h1, ?_⟩
      intro cs hcon
      rw [h1] at hcon
      exact SearchResult.noConfusion hcon

/-- Concrete three-correspondence lattice over the word "ab", used by the
witnesses of the enumerator claims; its search succeeds with one candidate
and without overflow. -/
def gProbe : Lattice :=
  (((Lattice.init ['a', 'b']).add ['a'] ['x'] 0).add ['b'] ['y'] 1).add ['a', 'b'] ['x', 'y'] 0

/-- The search result of `gProbe` (the fallbacks are unreachable; the
witnesses' `rfl` hypotheses prove the run is `ok`). -/
def probeR : SearchResult :=
  match gProbe.find_all_paths with
  | .ok (r, _, _) => r
  | .error _ => .noPathsFound

/-- The final search state of `gProbe`. -/
def probeS : SearchState :=
  match gProbe.find_all_paths with
  | .ok (_, s, _) => s
  | .error _ => SearchState.initial

/-- The final lattice of `gProbe`'s search. -/
def probeGOut : Lattice :=
  match gProbe.find_all_paths with
  | .ok (_, _, g2) => g2
  | .error _ => gProbe

/-- Claim C5 witness: the theorem applied to the concrete successful run. -/
theorem find_all_paths_overflow_forces_error_witness :
    probeS.overflow = false ∨ (probeR = .searchedTooLong ∧ ∀ cs, probeR ≠ .found cs) :=
  find_all_paths_overflow_forces_error gProbe probeR probeS probeGOut (by rfl)

lemma utilStep_foldl_furthest
    (rec : Node → Candidate → SearchState → Lattice → Candidate × SearchState × Lattice)
    (hrec : ∀ v b s2 g2, s2.furthest_index ≤ (rec v b s2 g2).2.1.furthest_index) :
    ∀ (arcs : List Arc) (acc : Candidate × SearchState × Lattice),
      acc.2.1.furthest_index ≤ (arcs.foldl (utilStep rec) acc).2.1.furthest_index := by
  intro arcs
  induction arcs with
  | nil => intro acc; exact le_refl _
  | cons arc rest ih =>
    intro acc
    rw [List.foldl_cons]
    refine le_trans ?_ (ih _)
    unfold utilStep
    dsimp only
    by_cases hv : acc.2.2.visited arc.to_node = false
    · rw [if_pos hv]
      exact hrec ..
    · rw [if_neg hv]

/-- `util` only ever advances `furthest_index`. -/
lemma util_furthest_mono (fuel : Nat) :
    ∀ (u d : Node) (buf : Candidate) (s : SearchState) (g : Lattice),
      s.furthest_index ≤ (util fuel u d buf s g).2.1.furthest_index := by
  induction fuel with
  | zero => intro u d buf s g; exact le_refl _
  | succ fuel' ih =>
    intro u d buf s g
    unfold util
    dsimp only
    by_cases hov : 25000000 < s.util_call_count + 1
    · rw [if_pos hov]
    · rw [if_neg hov]
      have hfur : s.furthest_index ≤
          (if s.furthest_index < u.index then u.index else s.furthest_index) := by
        split <;> omega
      by_cases hud : u = d
      · rw [if_pos hud]
        dsimp only
        split <;> exact hfur
      · rw [if_neg hud]
        by_cases hlt : ltMin buf.length s.min_length = true
        · rw [if_pos hlt]
          dsimp only
          exact le_trans hfur (utilStep_foldl_furthest _ (fun v b s2 g2 => ih v d b s2 g2) _ _)
        · rw [if_neg hlt]
          exact hfur

lemma searchLoop_no_noPaths (fuel : Nat) :
    ∀ (g : Lattice) (s : SearchState) (r : SearchResult) (s' : SearchState) (g' : Lattice),
      0 ≤ s.furthest_index → g.searchLoop fuel (-1) s = .ok (r, s', g') →
      r ≠ .noPathsFound := by
  induction fuel with
  | zero =>
    intro g s r s' g' hf h
    exact absurd h (by simp [Lattice.searchLoop])
  | succ fuel' ih =>
    intro g s r s' g' hf h
    unfold Lattice.searchLoop at h
    by_cases hc : (s.furthest_index < (g.letters.length : Int) ∧ s.overflow = false)
    · rw [if_pos hc] at h
      rw [if_neg (by omega : ¬ s.furthest_index = -1)] at h
      dsimp only at h
      have hf2 : 0 ≤ (g.searchAttempt s).2.1.furthest_index := by
        refine le_trans hf ?_
        unfold Lattice.searchAttempt
        exact util_furthest_mono ..
      by_cases hcand : 0 < (g.searchAttempt s).2.1.candidates.length
      · rw [if_pos hcand] at h
        exact ih _ _ _ _ _ hf2 h
      · rw [if_neg hcand] at h
        cases hls : (g.searchAttempt s).2.2.link_silences
            (g.searchAttempt s).2.1.furthest_index with
        | error e => rw [hls] at h; exact absurd h (by simp)
        | ok g2 =>
          rw [hls] at h
          exact ih _ _ _ _ _ hf2 h
    · rw [if_neg hc] at h
      simp only [Except.ok.injEq, Prod.mk.injEq] at h
      intro hcon
      rw [← h.1] at hcon
      by_cases hov : s.overflow = true
      · rw [if_pos hov] at hcon
        exact SearchResult.noConfusion hcon
      · rw [if_neg hov] at hcon
        exact SearchResult.noConfusion hcon

/-- Claim C2 (code_bug evidence): `find_all_paths` never returns the
`NO_PATHS_FOUND` error.  The source initialises the stall detector
`last_furthest_index = -1` and never reassigns it (the model threads it
unchanged through the loop), while `furthest_index` starts at 0 and — as
`util_furthest_mono` shows — only grows; the stall branch
`furthest_index == last_furthest_index` is therefore dead, and a stuck
search instead retries until the call ceiling turns it into
`SEARCHED_TOO_LONG`. -/
theorem find_all_paths_never_noPathsFound (g : Lattice) (r : SearchResult)
    (s' : SearchState) (g' : Lattice) (h : g.find_all_paths = .ok (r, s', g')) :
    r ≠ .noPathsFound := by
  unfold Lattice.find_all_paths at h
  cases hlu : g.link_unrepresented with
  | error e => rw [hlu] at h; exact absurd h (by simp)
  | ok g1 =>
    rw [hlu] at h
    exact searchLoop_no_noPaths _ _ _ _ _ _ (by simp [SearchState.initial]) h

/-- Claim C2 witness: the theorem applied to the concrete successful run. -/
theorem find_all_paths_never_noPathsFound_witness : probeR ≠ SearchResult.noPathsFound :=
  find_all_paths_never_noPathsFound gProbe probeR probeS probeGOut (by rfl)

lemma create_or_find_node_visited (g : Lattice) (l p : List Char) (i : Int) :
    ((g.create_or_find_node l p i).1).visited = g.visited := by
  unfold Lattice.create_or_find_node
  split <;> rfl

lemma create_or_iterate_arc_visited (g : Lattice) (inter : List Char) (a b : Node) :
    ((g.create_or_iterate_arc inter a b).1).visited = g.visited := by
  unfold Lattice.create_or_iterate_arc
  cases g.arcs.find? (arcKeyIs inter a b) <;> rfl

lemma add_visited (g : Lattice) (sub_letters sub_phones : List Char) (start_index : Int) :
    (g.add sub_letters sub_phones start_index).visited = g.visited := by
  match sub_letters, sub_phones with
  | [], _ => rfl
  | _ :: _, [] => rfl
  | l0 :: ls, p0 :: ps =>
    unfold Lattice.add
    dsimp only
    by_cases hsi : start_index = 0
    · rw [if_pos hsi]
      rw [create_or_iterate_arc_visited, create_or_iterate_arc_visited,
        create_or_find_node_visited, create_or_find_node_visited]
    · rw [if_neg hsi]
      by_cases hc : start_index + ((l0 :: ls).length : Int) =
          (((((g.create_or_find_node [l0] [p0] start_index).1).create_or_find_node
            [(l0 :: ls).getLastD l0] [(p0 :: ps).getLastD p0]
            (start_index + ((l0 :: ls).length : Int) - 1)).1).create_or_iterate_arc
            ((List.drop 1 (p0 :: ps)).dropLast)
            (g.create_or_find_node [l0] [p0] start_index).2
            (((g.create_or_find_node [l0] [p0] start_index).1).create_or_find_node
              [(l0 :: ls).getLastD l0] [(p0 :: ps).getLastD p0]
              (start_index + ((l0 :: ls).length : Int) - 1)).2).1.letters.length
      · rw [if_pos hc]
        rw [create_or_iterate_arc_visited, create_or_iterate_arc_visited,
          create_or_find_node_visited, create_or_find_node_visited]
      · rw [if_neg hc]
        rw [create_or_iterate_arc_visited,
          create_or_find_node_visited, create_or_find_node_visited]

lemma foldl_visited {α : Type} (f : Lattice → α → Lattice)
    (hf : ∀ g x, (f g x).visited = g.visited) :
    ∀ (l : List α) (g : Lattice), (l.foldl f g).visited = g.visited := by
  intro l
  induction l with
  | nil => intro g; rfl
  | cons x xs ih =>
    intro g
    rw [List.foldl_cons, ih, hf]

lemma link_visited (g : Lattice) (i : Nat) : (g.link i).visited = g.visited := by
  unfold Lattice.link
  rw [foldl_visited]
  intro g2 from_node
  rw [foldl_visited]
  intro g3 to_node
  exact add_visited ..

lemma link_silences_visited (g g' : Lattice) (furthest : Int)
    (h : g.link_silences furthest = .ok g') : g'.visited = g.visited := by
  unfold Lattice.link_silences at h
  cases h0 : g.letters.get? furthest.toNat with
  | none => rw [h0] at h; exact absurd h (by simp)
  | some c0 =>
    cases h1 : g.letters.get? (furthest.toNat + 1) with
    | none => rw [h0, h1] at h; exact absurd h (by simp)
    | some c1 =>
      rw [h0, h1] at h
      dsimp only at h
      cases h
      rw [foldl_visited]
      intro g2 index
      exact link_visited ..

lemma exFoldl_visited {α : Type} (f : Lattice → α → Except PyErr Lattice)
    (hf : ∀ g x g2, f g x = .ok g2 → g2.visited = g.visited) :
    ∀ (l : List α) (g g' : Lattice), exFoldl f g l = .ok g' → g'.visited = g.visited := by
  intro l
  induction l with
  | nil =>
    intro g g' h
    simp only [exFoldl] at h
    cases h
    rfl
  | cons x xs ih =>
    intro g g' h
    simp only [exFoldl] at h
    cases hx : f g x with
    | error e => rw [hx] at h; exact absurd h (by simp)
    | ok g2 =>
      rw [hx] at h
      rw [ih g2 g' h, hf g x g2 hx]

lemma link_unrepresented_visited (g g' : Lattice) (h : g.link_unrepresented = .ok g') :
    g'.visited = g.visited := by
  unfold Lattice.link_unrepresented at h
  by_cases hz : g.unrepresented_bigrams.length = 0
  · rw [if_pos hz] at h
    cases h
    rfl
  · rw [if_neg hz] at h
    refine exFoldl_visited _ ?_ _ _ _ h
    intro g2 item g3 hstep
    dsimp only at hstep
    cases hb0 : item.2.get? 0 with
    | none =>
      rw [hb0] at hstep
      cases hb1 : item.2.get? 1 with
      | none => rw [hb1] at hstep; exact absurd hstep (by simp)
      | some ec => rw [hb1] at hstep; exact absurd hstep (by simp)
    | some sc =>
      cases hb1 : item.2.get? 1 with
      | none => rw [hb0, hb1] at hstep; exact absurd hstep (by simp)
      | some ec =>
        rw [hb0, hb1] at hstep
        split at hstep
        · by_cases hs : (List.filter (fun n => n.index == ((item.1 : Int)))
              g2.nodes).length = 0
          · rw [if_pos hs] at hstep
            exact absurd hstep (by simp)
          · rw [if_neg hs] at hstep
            cases hstep
            rw [foldl_visited]
            intro g4 start_node
            rw [foldl_visited]
            intro g5 end_node
            exact add_visited ..
        · rename_i hfalse
          exact (hfalse sc ec rfl rfl).elim

lemma utilStep_foldl_visited
    (rec : Node → Candidate → SearchState → Lattice → Candidate × SearchState × Lattice)
    (hrec : ∀ v b s2 g2 n,
      ((rec v b s2 g2).2.2.visited n = (if n = v then false else g2.visited n)) ∨
      ((rec v b s2 g2).2.2.visited n = g2.visited n)) :
    ∀ (arcs : List Arc) (acc : Candidate × SearchState × Lattice) (n : Node),
      (arcs.foldl (utilStep rec) acc).2.2.visited n = acc.2.2.visited n := by
  intro arcs
  induction arcs with
  | nil => intro acc n; rfl
  | cons arc rest ih =>
    intro acc n
    rw [List.foldl_cons, ih]
    unfold utilStep
    dsimp only
    by_cases hv : acc.2.2.visited arc.to_node = false
    · rw [if_pos hv]
      rcases hrec arc.to_node (acc.1.update acc.2.2 arc) acc.2.1 acc.2.2 n with h | h
      · rw [h]
        by_cases hn : n = arc.to_node
        · rw [if_pos hn, hn, hv]
        · rw [if_neg hn]
      · rw [h]
    · rw [if_neg hv]

/-- Pointwise effect of `util` on the `visited` markers: each marker either
ends exactly as "input with `u` unmarked" or is untouched (the early
overflow return). -/
lemma util_visited_pointwise (fuel : Nat) :
    ∀ (u d : Node) (buf : Candidate) (s : SearchState) (g : Lattice) (n : Node),
      ((util fuel u d buf s g).2.2.visited n = (if n = u then false else g.visited n)) ∨
      ((util fuel u d buf s g).2.2.visited n = g.visited n) := by
  induction fuel with
  | zero => intro u d buf s g n; exact Or.inr rfl
  | succ fuel' ih =>
    intro u d buf s g n
    unfold util
    dsimp only
    by_cases hov : 25000000 < s.util_call_count + 1
    · rw [if_pos hov]
      exact Or.inr rfl
    · rw [if_neg hov]
      by_cases hud : u = d
      · rw [if_pos hud]
        dsimp only
        left
        by_cases hn : n = u
        · split <;> simp [hn]
        · split <;> simp [hn]
      · rw [if_neg hud]
        by_cases hlt : ltMin buf.length s.min_length = true
        · rw [if_pos hlt]
          dsimp only
          left
          rw [utilStep_foldl_visited _ (fun v b s2 g2 m => ih v d b s2 g2 m)]
          by_cases hn : n = u <;> simp [hn]
        · rw [if_neg hlt]
          left
          by_cases hn : n = u <;> simp [hn]

/-- Every search attempt leaves every `visited` marker false: the attempt
starts from the reset lattice and the DFS restores what it marks. -/
lemma searchAttempt_visited (g : Lattice) (s : SearchState) (n : Node) :
    (g.searchAttempt s).2.2.visited n = false := by
  unfold Lattice.searchAttempt
  rcases util_visited_pointwise _ _ _ _ _ _ n with h | h
  · rw [h]
    split <;> rfl
  · rw [h]

lemma searchLoop_visited (fuel : Nat) :
    ∀ (g : Lattice) (last : Int) (s : SearchState) (r : SearchResult) (s' : SearchState)
      (g' : Lattice), (∀ n, g.visited n = false) →
      g.searchLoop fuel last s = .ok (r, s', g') → ∀ n, g'.visited n = false := by
  induction fuel with
  | zero =>
    intro g last s r s' g' hg h
    exact absurd h (by simp [Lattice.searchLoop])
  | succ fuel' ih =>
    intro g last s r s' g' hg h
    unfold Lattice.searchLoop at h
    by_cases hc : (s.furthest_index < (g.letters.length : Int) ∧ s.overflow = false)
    · rw [if_pos hc] at h
      by_cases hst : s.furthest_index = last
      · rw [if_pos hst] at h
        simp only [Except.ok.injEq, Prod.mk.injEq] at h
        intro n
        rw [← h.2.2]
        exact hg n
      · rw [if_neg hst] at h
        dsimp only at h
        by_cases hcand : 0 < (g.searchAttempt s).2.1.candidates.length
        · rw [if_pos hcand] at h
          exact ih _ _ _ _ _ _ (searchAttempt_visited g s) h
        · rw [if_neg hcand] at h
          cases hls : (g.searchAttempt s).2.2.link_silences
              (g.searchAttempt s).2.1.furthest_index with
          | error e => rw [hls] at h; exact absurd h (by simp)
          | ok g2 =>
            rw [hls] at h
            refine ih _ _ _ _ _ _ ?_ h
            intro n
            rw [link_silences_visited _ _ _ hls]
            exact searchAttempt_visited g s n
    · rw [if_neg hc] at h
      simp only [Except.ok.injEq, Prod.mk.injEq] at h
      intro n
      rw [← h.2.2]
      exact hg n

/-- Claim C7: the `visited` markers are all false again when
`find_all_paths` returns (on every exit, the overflow abort included), and
every search attempt by construction runs the DFS on the lattice with every
marker reset to false — so the marker never leaks into a later enumeration
call. -/
theorem find_all_paths_clears_visited (g : Lattice) (r : SearchResult)
    (s' : SearchState) (g' : Lattice) (hstart : ∀ n, g.visited n = false)
    (h : g.find_all_paths = .ok (r, s', g')) :
    (∀ n, g'.visited n = false) ∧
    (∀ (g0 : Lattice) (s0 : SearchState),
      g0.searchAttempt s0 =
        util (({ g0 with visited := fun _ => false }).nodes.length + 1)
          ({ g0 with visited := fun _ => false }).START_NODE
          ({ g0 with visited := fun _ => false }).END_NODE Candidate.empty s0
          { g0 with visited := fun _ => false } ∧
      (∀ n, ({ g0 with visited := fun _ => false } : Lattice).visited n = false)) := by
  refine ⟨?_, fun g0 s0 => ⟨rfl, fun n => rfl⟩⟩
  unfold Lattice.find_all_paths at h
  cases hlu : g.link_unrepresented with
  | error e => rw [hlu] at h; exact absurd h (by simp)
  | ok g1 =>
    rw [hlu] at h
    refine searchLoop_visited _ _ _ _ _ _ _ ?_ h
    intro n
    rw [link_unrepresented_visited _ _ hlu]
    exact hstart n

/-- Claim C7 witness: the concrete run leaves the START node's marker (and,
by the theorem, every marker) false. -/
theorem find_all_paths_clears_visited_witness :
    probeGOut.visited ⟨[], [], -1⟩ = false :=
  (find_all_paths_clears_visited gProbe probeR probeS probeGOut (fun _ => rfl) (by rfl)).1
    ⟨[], [], -1⟩

/-! ### Membership lemmas for the rank-fusion decider (claims C1, C10) -/

lemma foldl_choice_mem {α : Type} (f : α → α → α) (hf : ∀ b y, f b y = y ∨ f b y = b) :
    ∀ (xs : List α) (b0 : α), xs.foldl f b0 = b0 ∨ xs.foldl f b0 ∈ xs := by
  intro xs
  induction xs with
  | nil => intro b0; exact Or.inl rfl
  | cons y ys ih =>
    intro b0
    rw [List.foldl_cons]
    rcases ih (f b0 y) with h | h
    · rw [h]
      rcases hf b0 y with h2 | h2
      · refine Or.inr ?_
        rw [h2]
        exact List.mem_cons_self _ _
      · exact Or.inl h2
    · exact Or.inr (List.mem_cons_of_mem _ h)

lemma firstMinByInt_mem {α : Type} (val : α → Int) (l : List α) (b : α)
    (h : firstMinByInt val l = some b) : b ∈ l := by
  cases l with
  | nil => exact absurd h (by simp [firstMinByInt])
  | cons x xs =>
    simp only [firstMinByInt, Option.some.injEq] at h
    rcases foldl_choice_mem (fun best y => if val y < val best then y else best)
      (fun b2 y => by dsimp only; split <;> simp) xs x with h2 | h2
    · rw [← h, h2]
      exact List.mem_cons_self _ _
    · rw [← h]
      exact List.mem_cons_of_mem _ h2

lemma firstMinByInt_le {α : Type} (val : α → Int) (l : List α) (b : α)
    (h : firstMinByInt val l = some b) : ∀ y ∈ l, val b ≤ val y := by
  cases l with
  | nil => exact absurd h (by simp [firstMinByInt])
  | cons x xs =>
    simp only [firstMinByInt, Option.some.injEq] at h
    have key : ∀ (ys : List α) (b0 : α),
        val (ys.foldl (fun best y => if val y < val best then y else best) b0) ≤ val b0 ∧
        ∀ y ∈ ys, val (ys.foldl (fun best y => if val y < val best then y else best) b0) ≤ val y := by
      intro ys
      induction ys with
      | nil => intro b0; exact ⟨le_refl _, by simp⟩
      | cons y2 ys2 ih =>
        intro b0
        rw [List.foldl_cons]
        have hstep : val (if val y2 < val b0 then y2 else b0) ≤ val b0 ∧
            val (if val y2 < val b0 then y2 else b0) ≤ val y2 := by
          split <;> omega
        obtain ⟨ih1, ih2⟩ := ih (if val y2 < val b0 then y2 else b0)
        refine ⟨le_trans ih1 hstep.1, ?_⟩
        intro y hy
        rcases List.mem_cons.mp hy with hy | hy
        · rw [hy]
          exact le_trans ih1 hstep.2
        · exact ih2 y hy
    intro y hy
    rcases List.mem_cons.mp hy with hy | hy
    · rw [← h, hy]
      exact (key xs x).1
    · rw [← h]
      exact (key xs x).2 y hy

lemma firstMaxBy_mem {α : Type} (val : α → Frac) (l : List α) (b : α)
    (h : firstMaxBy val l = some b) : b ∈ l := by
  cases l with
  | nil => exact absurd h (by simp [firstMaxBy])
  | cons x xs =>
    simp only [firstMaxBy, Option.some.injEq] at h
    rcases foldl_choice_mem (fun best y => if Frac.flt (val best) (val y) then y else best)
      (fun b2 y => by dsimp only; split <;> simp) xs x with h2 | h2
    · rw [← h, h2]
      exact List.mem_cons_self _ _
    · rw [← h]
      exact List.mem_cons_of_mem _ h2

lemma firstMaxByInt_mem {α : Type} (val : α → Int) (l : List α) (b : α)
    (h : firstMaxByInt val l = some b) : b ∈ l := by
  cases l with
  | nil => exact absurd h (by simp [firstMaxByInt])
  | cons x xs =>
    simp only [firstMaxByInt, Option.some.injEq] at h
    rcases foldl_choice_mem (fun best y => if val best < val y then y else best)
      (fun b2 y => by dsimp only; split <;> simp) xs x with h2 | h2
    · rw [← h, h2]
      exact List.mem_cons_self _ _
    · rw [← h]
      exact List.mem_cons_of_mem _ h2

lemma mem_insSorted {α : Type} (le : α → α → Bool) (x y : α) :
    ∀ (l : List α), y ∈ insSorted le x l ↔ y = x ∨ y ∈ l := by
  intro l
  induction l with
  | nil => simp [insSorted]
  | cons z zs ih =>
    by_cases hle : le x z = true
    · simp [insSorted, hle, List.mem_cons]
    · simp only [insSorted, hle, Bool.false_eq_true, if_false, List.mem_cons, ih]
      tauto

lemma mem_sortStable {α : Type} (le : α → α → Bool) (y : α) :
    ∀ (l : List α), y ∈ sortStable le l ↔ y ∈ l := by
  intro l
  induction l with
  | nil => simp [sortStable]
  | cons z zs ih =>
    simp only [sortStable, List.foldr_cons] at *
    rw [mem_insSorted, ih, List.mem_cons]

lemma buildRanks_keys (key : Candidate → Frac) :
    ∀ (l : List (Nat × Candidate)) (prev : Frac) (rank cprev : Nat)
      (q : (Nat × Candidate) × Nat), q ∈ buildRanks key l prev rank cprev → q.1 ∈ l := by
  intro l
  induction l with
  | nil => intro prev rank cprev q hq; exact absurd hq (by simp [buildRanks])
  | cons c rest ih =>
    intro prev rank cprev q hq
    simp only [buildRanks, List.mem_cons] at hq
    rcases hq with hq | hq
    · rw [hq]
      exact List.mem_cons_self _ _
    · exact List.mem_cons_of_mem _ (ih _ _ _ _ hq)

lemma rank_by_heuristic_snd_mem (g : Lattice) (tagged : List (Nat × Candidate))
    (key : Candidate → Frac) (descending : Bool) (x : Nat × Candidate)
    (hx : x ∈ (g.rank_by_heuristic tagged key descending).2) : x ∈ tagged := by
  unfold Lattice.rank_by_heuristic at hx
  dsimp only at hx
  set srt := sortStable (fun a b =>
    if descending then Frac.fle (key b.2) (key a.2) else Frac.fle (key a.2) (key b.2)) tagged
    with hsrt
  cases hs : srt with
  | nil => rw [hs] at hx; exact absurd hx (by simp)
  | cons c0 rest =>
    rw [hs] at hx
    dsimp only at hx
    rw [← hs] at hx
    rw [← mem_sortStable (fun a b =>
      if descending then Frac.fle (key b.2) (key a.2) else Frac.fle (key a.2) (key b.2)) x tagged]
    exact hsrt ▸ hx

lemma tsSet_keys {β : Type} (pool : List (Nat × Candidate)) :
    ∀ (tot : List ((Nat × Candidate) × β)) (c : Nat × Candidate) (v : β),
      (∀ q ∈ tot, q.1 ∈ pool) → c ∈ pool → ∀ q ∈ tsSet tot c v, q.1 ∈ pool := by
  intro tot
  induction tot with
  | nil =>
    intro c v hinv hc q hq
    simp only [tsSet, List.mem_singleton] at hq
    rw [hq]
    exact hc
  | cons p rest ih =>
    intro c v hinv hc q hq
    simp only [tsSet] at hq
    by_cases hk : (p.1.1 == c.1) = true
    · rw [if_pos hk] at hq
      rcases List.mem_cons.mp hq with hq | hq
      · rw [hq]
        exact hinv p (List.mem_cons_self _ _)
      · exact hinv q (List.mem_cons_of_mem _ hq)
    · rw [if_neg hk] at hq
      rcases List.mem_cons.mp hq with hq | hq
      · rw [hq]
        exact hinv p (List.mem_cons_self _ _)
      · exact ih c v (fun q2 hq2 => hinv q2 (List.mem_cons_of_mem _ hq2)) hc q hq

lemma foldl_tsSet_keys (pool : List (Nat × Candidate))
    (vf : List ((Nat × Candidate) × Frac) → (Nat × Candidate) → Frac) :
    ∀ (cands : List (Nat × Candidate)) (tot : List ((Nat × Candidate) × Frac)),
      (∀ q ∈ tot, q.1 ∈ pool) → (∀ c ∈ cands, c ∈ pool) →
      ∀ q ∈ cands.foldl (fun tot c => tsSet tot c (vf tot c)) tot, q.1 ∈ pool := by
  intro cands
  induction cands with
  | nil =>
    intro tot hinv hc q hq
    exact hinv q hq
  | cons c cs ih =>
    intro tot hinv hc q hq
    rw [List.foldl_cons] at hq
    exact ih _ (tsSet_keys pool tot c _ hinv (hc c (by simp)))
      (fun c2 hc2 => hc c2 (by simp [hc2])) q hq

lemma strategyTotals_keys (results : List (List ((Nat × Candidate) × Frac)))
    (t5 : List (Nat × Candidate)) (strategy : List Nat) :
    ∀ q ∈ strategyTotals results t5 strategy, q.1 ∈ t5 := by
  unfold strategyTotals
  generalize hbits : strategy.enum = bits
  clear hbits
  have key : ∀ (bits : List (Nat × Nat)) (tot : List ((Nat × Candidate) × Frac)),
      (∀ q ∈ tot, q.1 ∈ t5) →
      ∀ q ∈ bits.foldl
        (fun (totals : List ((Nat × Candidate) × Frac)) q =>
          let i := q.1
          let bit : Nat := q.2
          if bit = 0 then totals
          else
            let column := results.getD i []
            t5.foldl (fun totals candidate =>
              let colv := tsGetD column candidate (Frac.ofInt 0)
              tsSet totals candidate
                ((tsGetD totals candidate (Frac.ofInt 1)).mul
                  ((colv.mul (Frac.ofInt (bit : Int))).add (Frac.ofInt (1 - (bit : Int))))))
              totals) tot,
        q.1 ∈ t5 := by
    intro bits
    induction bits with
    | nil =>
      intro tot hinv q hq
      exact hinv q hq
    | cons b bs ih =>
      intro tot hinv q hq
      rw [List.foldl_cons] at hq
      refine ih _ ?_ q hq
      dsimp only
      by_cases hb : b.2 = 0
      · rw [if_pos hb]
        exact hinv
      · rw [if_neg hb]
        exact foldl_tsSet_keys t5
          (fun tot2 c => (tsGetD tot2 c (Frac.ofInt 1)).mul
            (((tsGetD (results.getD b.1 []) c (Frac.ofInt 0)).mul
              (Frac.ofInt (b.2 : Int))).add (Frac.ofInt (1 - (b.2 : Int)))))
          t5 tot hinv (fun c hc => hc)
  exact key _ [] (by simp)

/-- Every winner reported by `rank_by_heuristics`, and every element of the
final sorted list it returns, is one of the input candidates. -/
lemma rank_by_heuristics_mem (g : Lattice) (tagged : List (Nat × Candidate)) :
    (∀ q ∈ (g.rank_by_heuristics tagged).1, q.2 ∈ tagged) ∧
    (∀ x ∈ (g.rank_by_heuristics tagged).2, x ∈ tagged) := by
  unfold Lattice.rank_by_heuristics
  dsimp only
  have ht5 : ∀ x ∈ (g.rank_by_heuristic
      (g.rank_by_heuristic
        (g.rank_by_heuristic
          (g.rank_by_heuristic
            (g.rank_by_heuristic tagged (heuristicAttr 0) (heuristicDescending 0)).2
            (heuristicAttr 1) (heuristicDescending 1)).2
          (heuristicAttr 2) (heuristicDescending 2)).2
        (heuristicAttr 3) (heuristicDescending 3)).2
      (heuristicAttr 4) (heuristicDescending 4)).2, x ∈ tagged := by
    intro x hx
    exact rank_by_heuristic_snd_mem _ _ _ _ _
      (rank_by_heuristic_snd_mem _ _ _ _ _
        (rank_by_heuristic_snd_mem _ _ _ _ _
          (rank_by_heuristic_snd_mem _ _ _ _ _
            (rank_by_heuristic_snd_mem _ _ _ _ _ hx))))
  refine ⟨?_, ht5⟩
  have key : ∀ (bss : List (List Nat)) (acc : List (String × (Nat × Candidate))),
      (∀ q ∈ acc, q.2 ∈ tagged) →
      ∀ q ∈ bss.foldl (fun labeled strategy =>
        if strategy.all (fun b => b = 0) then labeled
        else
          match firstMaxBy (fun p => p.2)
              (strategyTotals
                [g.rank_to_score (g.rank_by_heuristic tagged (heuristicAttr 0)
                    (heuristicDescending 0)).1,
                 g.rank_to_score (g.rank_by_heuristic
                    (g.rank_by_heuristic tagged (heuristicAttr 0) (heuristicDescending 0)).2
                    (heuristicAttr 1) (heuristicDescending 1)).1,
                 g.rank_to_score (g.rank_by_heuristic
                    (g.rank_by_heuristic
                      (g.rank_by_heuristic tagged (heuristicAttr 0) (heuristicDescending 0)).2
                      (heuristicAttr 1) (heuristicDescending 1)).2
                    (heuristicAttr 2) (heuristicDescending 2)).1,
                 g.rank_to_score (g.rank_by_heuristic
                    (g.rank_by_heuristic
                      (g.rank_by_heuristic
                        (g.rank_by_heuristic tagged (heuristicAttr 0) (heuristicDescending 0)).2
                        (heuristicAttr 1) (heuristicDescending 1)).2
                      (heuristicAttr 2) (heuristicDescending 2)).2
                    (heuristicAttr 3) (heuristicDescending 3)).1,
                 g.rank_to_score (g.rank_by_heuristic
                    (g.rank_by_heuristic
                      (g.rank_by_heuristic
                        (g.rank_by_heuristic
                          (g.rank_by_heuristic tagged (heuristicAttr 0)
                            (heuristicDescending 0)).2
                          (heuristicAttr 1) (heuristicDescending 1)).2
                        (heuristicAttr 2) (heuristicDescending 2)).2
                      (heuristicAttr 3) (heuristicDescending 3)).2
                    (heuristicAttr 4) (heuristicDescending 4)).1]
                (g.rank_by_heuristic
                  (g.rank_by_heuristic
                    (g.rank_by_heuristic
                      (g.rank_by_heuristic
                        (g.rank_by_heuristic tagged (heuristicAttr 0)
                          (heuristicDescending 0)).2
                        (heuristicAttr 1) (heuristicDescending 1)).2
                      (heuristicAttr 2) (heuristicDescending 2)).2
                    (heuristicAttr 3) (heuristicDescending 3)).2
                  (heuristicAttr 4) (heuristicDescending 4)).2
                strategy) with
          | none => labeled
          | some best => labeled ++ [(strategyLabel strategy, best.1)]) acc,
        q.2 ∈ tagged := by
    intro bss
    induction bss with
    | nil =>
      intro acc hacc q hq
      exact hacc q hq
    | cons strat bs ih =>
      intro acc hacc q hq
      rw [List.foldl_cons] at hq
      refine ih _ ?_ q hq
      by_cases hallz : strat.all (fun b => b = 0) = true
      · rw [if_pos hallz]
        exact hacc
      · rw [if_neg hallz]
        cases hfm : firstMaxBy (fun p => (p : (Nat × Candidate) × Frac).2)
            (strategyTotals _ _ strat) with
        | none =>
          exact hacc
        | some best =>
          intro q2 hq2
          rcases List.mem_append.mp hq2 with hq2 | hq2
          · exact hacc q2 hq2
          · rw [List.mem_singleton.mp hq2]
            exact ht5 _ (strategyTotals_keys _ _ _ _ (firstMaxBy_mem _ _ _ hfm))
  exact fun q hq => key bitStrings5 [] (by simp) q hq

lemma headD_mem {α : Type} (l : List α) (d : α) (h : l ≠ []) : l.headD d ∈ l := by
  cases l with
  | nil => exact absurd rfl h
  | cons x xs => simp

lemma snd_mem_of_mem_enumFrom {α : Type} :
    ∀ (l : List α) (k : Nat) (p : Nat × α), p ∈ l.enumFrom k → p.2 ∈ l := by
  intro l
  induction l with
  | nil => intro k p hp; simp [List.enumFrom] at hp
  | cons x xs ih =>
    intro k p hp
    simp only [List.enumFrom, List.mem_cons] at hp
    rcases hp with hp | hp
    · rw [hp]
      exact List.mem_cons_self _ _
    · exact List.mem_cons_of_mem _ (ih (k + 1) p hp)

lemma snd_mem_of_mem_enum {α : Type} (l : List α) (p : Nat × α) (hp : p ∈ l.enum) :
    p.2 ∈ l := snd_mem_of_mem_enumFrom l 0 p hp

/-- Minimality of everything `decideCore` returns: every candidate in the
result mapping has the minimum length over the input candidates. -/
lemma decideCore_minimality (g : Lattice) (cs : List Candidate)
    (m : List (String × Candidate)) (cs2 : List Candidate) (g2 : Lattice)
    (h : g.decideCore cs = .ok (m, cs2, g2)) :
    ∀ p ∈ m, (∀ c ∈ cs, p.2.length ≤ c.length) ∧ p.2.length ∈ cs.map Candidate.length := by
  unfold Lattice.decideCore at h
  cases hmin : firstMinByInt (fun c => c.length) cs with
  | none => rw [hmin] at h; exact absurd h (by simp)
  | some cmin =>
    rw [hmin] at h
    dsimp only at h
    have hminmem : cmin ∈ cs := firstMinByInt_mem _ _ _ hmin
    have hminle : ∀ y ∈ cs, cmin.length ≤ y.length := firstMinByInt_le _ _ _ hmin
    have hlen_mem : cmin.length ∈ cs.map Candidate.length :=
      List.mem_map.mpr ⟨cmin, hminmem, rfl⟩
    have hfilt : ∀ c ∈ cs.filter (fun c => c.length == cmin.length),
        c ∈ cs ∧ c.length = cmin.length := by
      intro c hc
      have h2 := List.mem_filter.mp hc
      exact ⟨h2.1, by simpa using h2.2⟩
    by_cases hone : (cs.filter (fun c => c.length == cmin.length)).length = 1
    · rw [if_pos hone] at h
      simp only [Except.ok.injEq, Prod.mk.injEq] at h
      obtain ⟨hm, _, _⟩ := h
      intro p hp
      rw [← hm] at hp
      rw [List.mem_singleton] at hp
      have hne : cs.filter (fun c => c.length == cmin.length) ≠ [] := by
        intro hcon
        rw [hcon] at hone
        simp at hone
      obtain ⟨hmemcs, hlen⟩ := hfilt _ (headD_mem _ Candidate.empty hne)
      rw [hp]
      exact ⟨by rw [hlen]; exact hminle, by rw [hlen]; exact hlen_mem⟩
    · rw [if_neg hone] at h
      cases hch : g.compute_heuristics (cs.filter (fun c => c.length == cmin.length)) with
      | error e => rw [hch] at h; exact absurd h (by simp)
      | ok updated =>
        rw [hch] at h
        dsimp only at h
        have hupd : ∀ c ∈ updated, c.length = cmin.length := by
          intro c hc
          obtain ⟨spec1, spec2⟩ := compute_heuristics_spec _ _ _ hch
          obtain ⟨k, hk, hkeq⟩ := List.mem_iff_getElem.mp hc
          have hk2 : k < (cs.filter (fun c => c.length == cmin.length)).length := by
            rw [← spec1]
            exact hk
          obtain ⟨_, _, _, _, hlen5, _, _⟩ := spec2 k hk2 hk
          obtain ⟨_, hflen⟩ := hfilt _ (List.getElem_mem hk2)
          rw [← hkeq, hlen5, hflen]
        have hmemGoal : ∀ (c : Candidate), c ∈ updated →
            (∀ c2 ∈ cs, c.length ≤ c2.length) ∧ c.length ∈ cs.map Candidate.length := by
          intro c hc
          rw [hupd c hc]
          exact ⟨hminle, hlen_mem⟩
        split at h
        · rename_i sopBest acsBest hsop hacs
          simp only [Except.ok.injEq, Prod.mk.injEq] at h
          obtain ⟨hm, _, _⟩ := h
          intro p hp
          rw [← hm] at hp
          rcases List.mem_append.mp hp with hp | hp
          · obtain ⟨q, hq, hqeq⟩ := List.mem_map.mp hp
            have hq2 := (rank_by_heuristics_mem g updated.enum).1 q hq
            have hq3 := snd_mem_of_mem_enum _ _ hq2
            rw [← hqeq]
            exact hmemGoal _ hq3
          · rcases List.mem_cons.mp hp with hp | hp
            · have hsopmem := firstMaxByInt_mem _ _ _ hsop
              have hsoplist : (g.rank_by_heuristics updated.enum).2.filter
                  (fun p => p.2.sum_of_products == sopBest.2.sum_of_products) ≠ [] := by
                intro hcon
                have : sopBest ∈ (g.rank_by_heuristics updated.enum).2.filter
                    (fun p => p.2.sum_of_products == sopBest.2.sum_of_products) :=
                  List.mem_filter.mpr ⟨hsopmem, by simp⟩
                rw [hcon] at this
                exact absurd this (by simp)
              have hmem2 := headD_mem _ ((0 : Nat), Candidate.empty) hsoplist
              have hmem3 := (List.mem_filter.mp hmem2).1
              have hmem4 := (rank_by_heuristics_mem g updated.enum).2 _ hmem3
              have hmem5 := snd_mem_of_mem_enum _ _ hmem4
              rw [hp]
              exact hmemGoal _ hmem5
            · rw [List.mem_singleton] at hp
              have hacsmem := firstMaxByInt_mem _ _ _ hacs
              have hacslist : (g.rank_by_heuristics updated.enum).2.filter
                  (fun p => p.2.arc_count_sum == acsBest.2.arc_count_sum) ≠ [] := by
                intro hcon
                have : acsBest ∈ (g.rank_by_heuristics updated.enum).2.filter
                    (fun p => p.2.arc_count_sum == acsBest.2.arc_count_sum) :=
                  List.mem_filter.mpr ⟨hacsmem, by simp⟩
                rw [hcon] at this
                exact absurd this (by simp)
              have hmem2 := headD_mem _ ((0 : Nat), Candidate.empty) hacslist
              have hmem3 := (List.mem_filter.mp hmem2).1
              have hmem4 := (rank_by_heuristics_mem g updated.enum).2 _ hmem3
              have hmem5 := snd_mem_of_mem_enum _ _ hmem4
              rw [hp]
              exact hmemGoal _ hmem5
        · exact absurd h (by simp)

/-- Claim C1: for every non-error, non-empty candidate list, every candidate
in the mapping returned by `decide` — under every label (the 31 fusion
bitstrings, `min_length`, `sum_of_products`, `arc_count_sum`) — has the
minimum length over the input candidates; `decide` never returns a candidate
whose length exceeds that minimum. -/
theorem decide_minimality (g : Lattice) (cs : List Candidate)
    (m : List (String × Candidate)) (cs2 : List Candidate) (g2 : Lattice)
    (h : g.decide (.candidateList cs) = .ok (.results m, cs2, g2)) :
    ∀ p ∈ m, (∀ c ∈ cs, p.2.length ≤ c.length) ∧ p.2.length ∈ cs.map Candidate.length := by
  unfold Lattice.decide at h
  dsimp only at h
  by_cases hemp : cs.length = 0
  · rw [if_pos hemp] at h
    exact absurd h (by simp)
  · rw [if_neg hemp] at h
    cases hdc : g.decideCore cs with
    | error e => rw [hdc] at h; exact absurd h (by simp)
    | ok trip =>
      rw [hdc] at h
      obtain ⟨m0, cs0, g0⟩ := trip
      simp only [Except.ok.injEq, Prod.mk.injEq, DecideOut.results.injEq] at h
      obtain ⟨hm, hcs2, hg2⟩ := h
      rw [← hm]
      exact decideCore_minimality g cs m0 cs0 g0 hdc

/-- Concrete candidates over the word "ab" for the decider witnesses: two
minimal-length (3) rivals with interior counts 5 and 3, plus a longer
(length 4) candidate that the minimum-length filter discards. -/
def candA : Candidate :=
  { Candidate.empty with
    arcs := [⟨⟨[], [], -1⟩, [], ⟨['a'], ['x'], 0⟩, 1⟩,
             ⟨⟨['a'], ['x'], 0⟩, [], ⟨['b'], ['y'], 1⟩, 5⟩,
             ⟨⟨['b'], ['y'], 1⟩, [], ⟨[], [], 2⟩, 1⟩]
    pronunciation := ['x', 'y'], length := 3, arc_count_sum := 5 }

/-- Second minimal-length rival. -/
def candB : Candidate :=
  { Candidate.empty with
    arcs := [⟨⟨[], [], -1⟩, [], ⟨['a'], ['x'], 0⟩, 1⟩,
             ⟨⟨['a'], ['x'], 0⟩, [], ⟨['b'], ['z'], 1⟩, 3⟩,
             ⟨⟨['b'], ['z'], 1⟩, [], ⟨[], [], 2⟩, 1⟩]
    pronunciation := ['x', 'z'], length := 3, arc_count_sum := 3 }

/-- The longer, non-minimal candidate. -/
def candC : Candidate :=
  { Candidate.empty with length := 4, pronunciation := ['q', 'q', 'q'] }

/-- Fresh two-letter lattice for the decider witnesses. -/
def gAB : Lattice := Lattice.init ['a', 'b']

/-- The result mapping of the concrete `decide` run (the fallback is
unreachable; the witnesses' `rfl` hypotheses prove the run is `ok`). -/
def mProbe : List (String × Candidate) :=
  match gAB.decide (.candidateList [candA, candB, candC]) with
  | .ok (.results m, _, _) => m
  | _ => []

/-- The post-state of the candidate list of the concrete `decide` run. -/
def csProbe : List Candidate :=
  match gAB.decide (.candidateList [candA, candB, candC]) with
  | .ok (_, cs2, _) => cs2
  | _ => []

/-- The post-state of the lattice of the concrete `decide` run. -/
def gABOut : Lattice :=
  match gAB.decide (.candidateList [candA, candB, candC]) with
  | .ok (_, _, g2) => g2
  | _ => gAB

/-- Claim C1 witness: the theorem applied to the concrete run, instantiated
at the mapping's first label. -/
theorem decide_minimality_witness :
    (mProbe.headD ("", Candidate.empty)).2.length ≤ candA.length ∧
    (mProbe.headD ("", Candidate.empty)).2.length ∈
      [candA, candB, candC].map Candidate.length := by
  have h := decide_minimality gAB [candA, candB, candC] mProbe csProbe gABOut (by rfl)
    (mProbe.headD ("", Candidate.empty)) (by decide)
  exact ⟨h.1 candA (by simp), h.2⟩

/-- The frame of a candidate: `b` agrees with `a` on everything except
possibly the six heuristic fields (`arc_count_product`,
`path_structure_standard_deviation`, `frequency_of_same_pronunciation`,
`number_of_different_symbols`, `weakest_link`, `sum_of_products`). -/
def FrameOnly (a b : Candidate) : Prop :=
  b.path = a.path ∧ b.arcs = a.arcs ∧ b.path_strings = a.path_strings ∧
  b.pronunciation = a.pronunciation ∧ b.length = a.length ∧
  b.arc_count_sum = a.arc_count_sum

lemma frameOnly_refl (a : Candidate) : FrameOnly a a :=
  ⟨rfl, rfl, rfl, rfl, rfl, rfl⟩

lemma forall₂_of_getElem {α β : Type} (r : α → β → Prop) :
    ∀ (l1 : List α) (l2 : List β), l1.length = l2.length →
      (∀ (k : Nat) (h1 : k < l1.length) (h2 : k < l2.length), r (l1[k]) (l2[k])) →
      List.Forall₂ r l1 l2 := by
  intro l1
  induction l1 with
  | nil =>
    intro l2 hlen _
    cases l2 with
    | nil => exact List.Forall₂.nil
    | cons y ys => exact absurd hlen (by simp)
  | cons x xs ih =>
    intro l2 hlen hget
    cases l2 with
    | nil => exact absurd hlen (by simp)
    | cons y ys =>
      refine List.Forall₂.cons (hget 0 (by simp) (by simp)) ?_
      refine ih ys (by simpa using hlen) ?_
      intro k h1 h2
      exact hget (k + 1) (by simpa using h1) (by simpa using h2)

lemma patchByLength_spec (mval : Int) :
    ∀ (cs upd : List Candidate),
      List.Forall₂ FrameOnly (cs.filter (fun c => c.length == mval)) upd →
      (patchByLength cs mval upd).length = cs.length ∧
      ∀ (k : Nat) (hk : k < cs.length) (hk2 : k < (patchByLength cs mval upd).length),
        FrameOnly (cs[k]) ((patchByLength cs mval upd)[k]) ∧
        ((cs[k]).length ≠ mval → (patchByLength cs mval upd)[k] = cs[k]) := by
  intro cs
  induction cs with
  | nil =>
    intro upd _
    exact ⟨rfl, fun k hk => absurd hk (by simp)⟩
  | cons c rest ih =>
    intro upd hrel
    by_cases hlen : c.length = mval
    · rw [List.filter_cons_of_pos (by simpa using hlen)] at hrel
      cases hrel with
      | cons hcu hrest =>
        rename_i u us
        obtain ⟨ihlen, ihget⟩ := ih us hrest
        have hpatch : patchByLength (c :: rest) mval (u :: us) =
            u :: patchByLength rest mval us := by
          conv_lhs => unfold patchByLength
          rw [if_pos hlen]
        rw [hpatch]
        refine ⟨by simpa using ihlen, ?_⟩
        intro k hk hk2
        match k with
        | 0 => exact ⟨by simpa using hcu, fun hcon => absurd hlen hcon⟩
        | Nat.succ k' =>
          simp only [List.getElem_cons_succ]
          exact ihget k' (by simpa using hk) (by simpa using hk2)
    · rw [List.filter_cons_of_neg (by simpa using hlen)] at hrel
      obtain ⟨ihlen, ihget⟩ := ih upd hrel
      have hpatch : patchByLength (c :: rest) mval upd = c :: patchByLength rest mval upd := by
        conv_lhs => unfold patchByLength
        rw [if_neg hlen]
      rw [hpatch]
      refine ⟨by simpa using ihlen, ?_⟩
      intro k hk hk2
      match k with
      | 0 => exact ⟨frameOnly_refl c, fun _ => rfl⟩
      | Nat.succ k' =>
        simp only [List.getElem_cons_succ]
        exact ihget k' (by simpa using hk) (by simpa using hk2)

/-- Frame effect of `decideCore`: the lattice's node and arc stores are
untouched, the candidate list keeps its length, every candidate keeps its
path, arcs, symbol buffers, pronunciation, length and `arc_count_sum`
(mutation hits only the six heuristic fields), and every non-minimal
candidate is returned completely unchanged. -/
lemma decideCore_frame (g : Lattice) (cs : List Candidate)
    (m : List (String × Candidate)) (cs2 : List Candidate) (g2 : Lattice)
    (h : g.decideCore cs = .ok (m, cs2, g2)) :
    g2.nodes = g.nodes ∧ g2.arcs = g.arcs ∧ cs2.length = cs.length ∧
    ∀ (k : Nat) (hk : k < cs.length) (hk2 : k < cs2.length),
      FrameOnly (cs[k]) (cs2[k]) ∧
      ((∃ x ∈ cs, x.length < (cs[k]).length) → cs2[k] = cs[k]) := by
  unfold Lattice.decideCore at h
  cases hmin : firstMinByInt (fun c => c.length) cs with
  | none => rw [hmin] at h; exact absurd h (by simp)
  | some cmin =>
    rw [hmin] at h
    dsimp only at h
    have hminle : ∀ y ∈ cs, cmin.length ≤ y.length := firstMinByInt_le _ _ _ hmin
    by_cases hone : (cs.filter (fun c => c.length == cmin.length)).length = 1
    · rw [if_pos hone] at h
      simp only [Except.ok.injEq, Prod.mk.injEq] at h
      obtain ⟨_, hcs2, hg2⟩ := h
      subst hcs2
      subst hg2
      refine ⟨rfl, rfl, rfl, ?_⟩
      intro k hk hk2
      exact ⟨frameOnly_refl _, fun _ => rfl⟩
    · rw [if_neg hone] at h
      cases hch : g.compute_heuristics (cs.filter (fun c => c.length == cmin.length)) with
      | error e => rw [hch] at h; exact absurd h (by simp)
      | ok updated =>
        rw [hch] at h
        dsimp only at h
        split at h
        · simp only [Except.ok.injEq, Prod.mk.injEq] at h
          obtain ⟨_, hcs2, hg2⟩ := h
          obtain ⟨spec1, spec2⟩ := compute_heuristics_spec _ _ _ hch
          have hrel : List.Forall₂ FrameOnly
              (cs.filter (fun c => c.length == cmin.length)) updated := by
            refine forall₂_of_getElem _ _ _ spec1.symm ?_
            intro k h1 h2
            obtain ⟨p1, p2, p3, p4, p5, p6, _⟩ := spec2 k h1 h2
            exact ⟨p1, p2, p3, p4, p5, p6⟩
          obtain ⟨plen, pget⟩ := patchByLength_spec cmin.length cs updated hrel
          refine ⟨by rw [← hg2], by rw [← hg2], by rw [← hcs2]; exact plen, ?_⟩
          intro k hk hk2
          have hk2b : k < (patchByLength cs cmin.length updated).length := by
            rw [plen]
            exact hk
          obtain ⟨pframe, puntouched⟩ := pget k hk hk2b
          constructor
          · have : cs2[k] = (patchByLength cs cmin.length updated)[k] := by
              congr 1
              rw [← hcs2]
            rw [this]
            exact pframe
          · intro hex
            have hne : (cs[k]).length ≠ cmin.length := by
              obtain ⟨x, hx, hxlt⟩ := hex
              have := hminle x hx
              omega
            have : cs2[k] = (patchByLength cs cmin.length updated)[k] := by
              congr 1
              rw [← hcs2]
            rw [this]
            exact puntouched hne
        · exact absurd h (by simp)

/-- Claim C10: when `decide` proceeds past its input checks, its only side
effect on the caller's data is on the six heuristic fields of the
minimum-length candidates: the node and arc stores are unchanged, the
candidate list keeps its length, every candidate keeps its `path`, `arcs`,
`path_strings`, `pronunciation`, `length` and `arc_count_sum`, and every
candidate that is not of minimal length is returned untouched. -/
theorem decide_frame_effect (g : Lattice) (cs : List Candidate) (out : DecideOut)
    (cs2 : List Candidate) (g2 : Lattice)
    (h : g.decide (.candidateList cs) = .ok (out, cs2, g2)) :
    g2.nodes = g.nodes ∧ g2.arcs = g.arcs ∧ cs2.length = cs.length ∧
    ∀ (k : Nat) (hk : k < cs.length) (hk2 : k < cs2.length),
      FrameOnly (cs[k]) (cs2[k]) ∧
      ((∃ x ∈ cs, x.length < (cs[k]).length) → cs2[k] = cs[k]) := by
  unfold Lattice.decide at h
  dsimp only at h
  by_cases hemp : cs.length = 0
  · rw [if_pos hemp] at h
    simp only [Except.ok.injEq, Prod.mk.injEq] at h
    obtain ⟨_, hcs2, hg2⟩ := h
    subst hcs2
    subst hg2
    refine ⟨rfl, rfl, rfl, ?_⟩
    intro k hk hk2
    exact ⟨frameOnly_refl _, fun _ => rfl⟩
  · rw [if_neg hemp] at h
    cases hdc : g.decideCore cs with
    | error e => rw [hdc] at h; exact absurd h (by simp)
    | ok trip =>
      rw [hdc] at h
      obtain ⟨m0, cs0, g0⟩ := trip
      simp only [Except.ok.injEq, Prod.mk.injEq] at h
      obtain ⟨_, hcs2, hg2⟩ := h
      rw [← hcs2, ← hg2]
      obtain ⟨q1, q2, q3, q4⟩ := decideCore_frame g cs m0 cs0 g0 hdc
      exact ⟨q1, q2, q3, q4⟩

/-- Claim C10 witness: the concrete run leaves the graph stores and the
list length unchanged (hypotheses discharged by evaluation). -/
theorem decide_frame_effect_witness :
    gABOut.nodes = gAB.nodes ∧ gABOut.arcs = gAB.arcs ∧
    csProbe.length = [candA, candB, candC].length := by
  have h := decide_frame_effect gAB [candA, candB, candC] (.results mProbe) csProbe gABOut
    (by rfl)
  exact ⟨h.1, h.2.1, h.2.2.1⟩

end PBA
